import Mathlib

/-
Verification of the bravo.plugin repository: a shallow embedding of the
Exocet mapper algebra (src/exocet/_exocet.py), the import-isolation state
discipline (`_isolateImports`), and the plugin registry machinery
(src/bravo_plugin.py: `sort_plugins`, `add_plugin_edges`, `expand_names`,
`retrieve_plugins`, `retrieve_named_plugins`).

Python conventions used by the embedding:
  - an `ImportError`-style lookup failure is `Option.none`;
  - a Python `dict` is an association list (first binding wins on lookup,
    insertion overwrites in place);
  - a Python `set` of strings is a duplicate-free `List String`, with
    `set.add` modelled by appending when absent and `set.discard` by
    filtering; only membership in these sets is ever observed.
-/

set_option autoImplicit false

namespace BravoPlugin
/-! ## Exocet mappers (src/exocet/_exocet.py)

`Mapper α` covers the four mapper variants.  `callable` is
`CallableMapper` (its `_baseLookup` callable either returns a target or
raises `ImportError`, i.e. returns `Option α`); `dict` is `DictMapper`;
`stacked` is `_StackedMapper`; `exclusive` is `ExclusiveMapper`. -/
inductive Mapper (α : Type) : Type where
  | callable (baseLookup : String → Option α)
  | dict (d : List (String × α))
  | stacked (submappers : List (Mapper α))
  | exclusive (submapper : Mapper α) (excluded : List String)

/- Modelling notes: the callable wrapped by `CallableMapper` is modelled
as failing only with `ImportError` (`none`), which is the failure mode of
every callable the code wraps (`_noLookup` and `_PEP302Mapper._baseLookup`).
For an empty submapper list the Python `_StackedMapper.lookup` would fail
with an unbound local `e` rather than `ImportError`; no code path builds
an empty stack (`withOverrides` always builds two-element stacks), and the
model treats it as a failed lookup. -/

mutual

/-- Lookup of each mapper variant.  `CallableMapper.lookup` calls the
wrapped callable and re-raises its `ImportError` as a fresh `ImportError`;
`DictMapper.lookup` returns `self._dict[name]` when present and raises
otherwise; `_StackedMapper.lookup` tries each submapper in turn and
returns the first success, re-raising the last failure when all fail;
`ExclusiveMapper.lookup` raises for excluded names and otherwise
delegates to the submapper. -/
def Mapper.lookup {α : Type} : Mapper α → String → Option α
  | .callable f, name => f name
  | .dict d, name => List.lookup name d
  | .stacked subs, name => Mapper.lookupStacked subs name
  | .exclusive sub excluded, name =>
      if name ∈ excluded then none else sub.lookup name

/-- The `for m in self._submappers` loop of `_StackedMapper.lookup`:
first successful sub-lookup wins; failure when every submapper fails. -/
def Mapper.lookupStacked {α : Type} : List (Mapper α) → String → Option α
  | [], _ => none
  | m :: ms, name =>
      match m.lookup name with
      | some val => some val
      | none => Mapper.lookupStacked ms name

end

/-- Membership test of each mapper variant.  `DictMapper.contains` is
`name in self._dict`; `CallableMapper.contains` and
`_StackedMapper.contains` call `self.lookup` and catch `ImportError`;
`ExclusiveMapper.contains` returns `False` for excluded names and
otherwise delegates to the `contains` of the submapper. -/
def Mapper.contains {α : Type} : Mapper α → String → Bool
  | .callable f, name => (Mapper.lookup (.callable f) name).isSome
  | .dict d, name => (List.lookup name d).isSome
  | .stacked subs, name => (Mapper.lookup (.stacked subs) name).isSome
  | .exclusive sub excluded, name =>
      if name ∈ excluded then false else sub.contains name

/-- Overriding: `withOverrides` on every variant returns
`_StackedMapper([DictMapper(overrides), self])`. -/
def Mapper.withOverrides {α : Type} (m : Mapper α) (overrides : List (String × α)) :
    Mapper α :=
  .stacked [.dict overrides, m]

/-- Python `emptyMapper = CallableMapper(_noLookup)`: the callable always raises. -/
def emptyMapper {α : Type} : Mapper α := .callable (fun _ => none)

/-! ## Plugins (src/bravo_plugin.py)

A plugin carries a `name` and the `before`/`after` ordering hints of
`ISortedPlugin`.  `before` and `after` are Python sets of names; they are
modelled as lists of which only membership is observed. -/
structure Plugin where
  name : String
  before : List String
  after : List String
deriving DecidableEq, Repr

/-- Python `d = dict((plugin.name, plugin) for plugin in plugins)`: on duplicate
names the later plugin wins, so `d[n]` is the last plugin named `n`. -/
def findPlugin (plugins : List Plugin) (n : String) : Option Plugin :=
  plugins.reverse.find? (fun p => p.name == n)

/-- Python `name in d` for the dict built by `sort_plugins`. -/
def hasName (plugins : List Plugin) (n : String) : Bool :=
  plugins.any (fun p => p.name == n)

/-- The `for name in plugin.before: if name in d: visit(d[name])` loop of
`sort_plugins`, with the recursive `visit` passed in as `v`. -/
def visitNamesGo (ps : List Plugin)
    (v : Plugin → List Plugin → Option (List Plugin)) :
    List String → List Plugin → Option (List Plugin)
  | [], l => some l
  | n :: ns, l =>
      match findPlugin ps n with
      | none => visitNamesGo ps v ns l
      | some q =>
          match v q l with
          | none => none
          | some l' => visitNamesGo ps v ns l'

/-- The recursive `visit` helper of `sort_plugins`.  `fuel` models
the Python recursion limit: `none` is the `RuntimeError` raised when the
recursion does not terminate.  `visit` appends the (transitive) members
of `plugin.before` to the accumulator `l` and then appends `plugin`
itself, skipping plugins already in `l`. -/
def visit (ps : List Plugin) : Nat → Plugin → List Plugin → Option (List Plugin)
  | 0, _, _ => none
  | fuel + 1, p, l =>
      if p ∈ l then some l
      else
        match visitNamesGo ps (visit ps fuel) p.before l with
        | none => none
        | some l' => some (l' ++ [p])

/-- The seed loop of `sort_plugins`: visit every plugin none of whose
`after` names is a known plugin. -/
def sortSeeds (ps : List Plugin) (fuel : Nat) :
    List Plugin → List Plugin → Option (List Plugin)
  | [], l => some l
  | p :: rest, l =>
      if p.after.any (fun n => hasName ps n) then sortSeeds ps fuel rest l
      else
        match visit ps fuel p l with
        | none => none
        | some l' => sortSeeds ps fuel rest l'

/-- Python `sort_plugins(plugins)` (src/bravo_plugin.py lines 93-117), with a
fuel bound standing for the Python recursion limit: `none` models the
`RuntimeError` of infinite recursion. -/
def sort_plugins (fuel : Nat) (plugins : List Plugin) : Option (List Plugin) :=
  sortSeeds plugins fuel plugins []

/-! ## Edge mirroring (`add_plugin_edges`, src/bravo_plugin.py lines 119-140)

The plugin dictionary is a list of plugins keyed by their (distinct)
names; mutating one plugin object in place is modelled by mapping an
update over the list. -/
/-- Python `set.add`: append the name when absent. -/
def insertName (x : String) (l : List String) : List String :=
  if x ∈ l then l else l ++ [x]

/-- Python `set.discard`: drop the name. -/
def discardName (x : String) (l : List String) : List String :=
  l.filter (fun y => y ≠ x)

/-- In-place mutation of the plugin object named `target`. -/
def updatePlugin (d : List Plugin) (target : String) (f : Plugin → Plugin) :
    List Plugin :=
  d.map (fun p => if p.name = target then f p else p)

/-- Python `d[target].after.add(x)`. -/
def addAfterEdge (d : List Plugin) (target x : String) : List Plugin :=
  updatePlugin d target (fun p => { p with after := insertName x p.after })

/-- Python `d[target].before.add(x)`. -/
def addBeforeEdge (d : List Plugin) (target x : String) : List Plugin :=
  updatePlugin d target (fun p => { p with before := insertName x p.before })

/-- Python `d[target].before.discard(x)`. -/
def dropBeforeEdge (d : List Plugin) (target x : String) : List Plugin :=
  updatePlugin d target (fun p => { p with before := discardName x p.before })

/-- Python `d[target].after.discard(x)`. -/
def dropAfterEdge (d : List Plugin) (target x : String) : List Plugin :=
  updatePlugin d target (fun p => { p with after := discardName x p.after })

/-- Python `edge in d` for the plugin dictionary. -/
def hasKey (d : List Plugin) (n : String) : Bool :=
  d.any (fun p => p.name = n)

/-- The (first, hence with distinct names the only) plugin named `n`. -/
def findByName (d : List Plugin) (n : String) : Option Plugin :=
  d.find? (fun p => p.name = n)

/-- The `before` set of the plugin named `n` in the dictionary. -/
def beforeOf (d : List Plugin) (n : String) : List String :=
  ((findByName d n).map Plugin.before).getD []

/-- The `after` set of the plugin named `n` in the dictionary. -/
def afterOf (d : List Plugin) (n : String) : List String :=
  ((findByName d n).map Plugin.after).getD []

/-- One iteration of `for edge in list(plugin.before)`:
`if edge in d: d[edge].after.add(name) else: plugin.before.discard(edge)`. -/
def mirrorBeforeStep (pname : String) (d : List Plugin) (e : String) :
    List Plugin :=
  if hasKey d e then addAfterEdge d e pname else dropBeforeEdge d pname e

/-- One iteration of `for edge in list(plugin.after)`:
`if edge in d: d[edge].before.add(name) else: plugin.after.discard(edge)`. -/
def mirrorAfterStep (pname : String) (d : List Plugin) (e : String) :
    List Plugin :=
  if hasKey d e then addBeforeEdge d e pname else dropAfterEdge d pname e

/-- The `for edge in list(plugin.after)` loop, whose snapshot is taken
after the `before` loop has run. -/
def processAfterPhase (d1 : List Plugin) (pname : String) : List Plugin :=
  (afterOf d1 pname).foldl (mirrorAfterStep pname) d1

/-- The body of `for name, plugin in d.iteritems()`: snapshot the `before` set of the plugin, mirror it, then snapshot its (possibly already updated)
`after` set and mirror that. -/
def processPlugin (d : List Plugin) (pname : String) : List Plugin :=
  processAfterPhase ((beforeOf d pname).foldl (mirrorBeforeStep pname) d) pname

/-- The first loop of `add_plugin_edges`:
`plugin.after = set(plugin.after); plugin.before = set(plugin.before)`. -/
def setifyPlugins (d : List Plugin) : List Plugin :=
  d.map (fun p => { p with before := p.before.dedup, after := p.after.dedup })

/-- Python `add_plugin_edges(d)` (src/bravo_plugin.py lines 119-140). -/
def add_plugin_edges (d : List Plugin) : List Plugin :=
  let d0 := setifyPlugins d
  (d0.map Plugin.name).foldl processPlugin d0

/-! ## Name expansion (`expand_names`, src/bravo_plugin.py lines 142-175) -/
/-- Python `name.startswith("-")`: the first character is a dash. -/
def dashToken (name : String) : Bool :=
  name.data.head? == some '-'

/-- Python `name[1:]`: the token with its leading character removed. -/
def stripDash (name : String) : String :=
  String.mk (name.data.drop 1)

/-- The partition loop body of `expand_names`: a `*` token sets the
wildcard flag, a `-`-prefixed token adds its remainder to the exception
set, and any other token is an explicit inclusion.  The accumulator is
(wildcard, exceptions, expanded). -/
def expandStep (acc : Bool × List String × List String) (name : String) :
    Bool × List String × List String :=
  if name = "*" then (true, acc.2.1, acc.2.2)
  else if dashToken name then (acc.1, insertName (stripDash name) acc.2.1, acc.2.2)
  else (acc.1, acc.2.1, insertName name acc.2.2)

/-- Python `expand_names(plugins, names)`: partition the tokens, widen with every
known plugin name when a wildcard was seen, then subtract the exceptions.
The Python function returns `list(expanded - exceptions)` whose order is
unspecified (set iteration); the model returns the set as a
duplicate-free list of which only membership is meaningful. -/
def expand_names (plugins : List String) (names : List String) : List String :=
  let acc := names.foldl expandStep (false, [], [])
  let expanded :=
    if acc.1 then plugins.foldl (fun l n => insertName n l) acc.2.2 else acc.2.2
  expanded.filter (fun n => n ∉ acc.2.1)

/-! ## Plugin retrieval (src/bravo_plugin.py lines 286-345)

`get_plugins` performs filesystem discovery and `verify_plugin` wraps
`zope.interface` verification; the registry logic under test is
parametrised by the discovered candidate list and the verification
predicate. -/
/-- Python `d[p.name] = p` on a dict: overwrite in place, else append. -/
def pluginInsert (d : List Plugin) (p : Plugin) : List Plugin :=
  if hasKey d p.name then d.map (fun q => if q.name = p.name then p else q)
  else d ++ [p]

/-- The discovery loop of `retrieve_plugins`: verified candidates are
keyed by name, a failed verification is caught and skipped. -/
def discoverPlugins (verify : Plugin → Bool) (found : List Plugin) : List Plugin :=
  found.foldl (fun d p => if verify p then pluginInsert d p else d) []

/-- Python `retrieve_plugins(interface)` minus caching: build the name-keyed dict
of verified candidates, mirroring edges when the interface is sorted. -/
def retrieve_plugins (verify : Plugin → Bool) (found : List Plugin)
    (sortedInterface : Bool) : List Plugin :=
  let d := discoverPlugins verify found
  if sortedInterface then add_plugin_edges d else d

/-- The `PluginException` raised by `retrieve_named_plugins` when a
requested name is missing (Python formats it into the message
`"Couldn%27t find plugin %s for interface %s!"`). -/
inductive PluginError : Type where
  | pluginNotFound (plugin : String) (iface : String)
deriving DecidableEq, Repr

/-- The `[d[name] for name in names]` comprehension: the first missing
name raises, caught and re-raised as `PluginException`. -/
def lookupNames (d : List Plugin) (iface : String) :
    List String → Except PluginError (List Plugin)
  | [] => .ok []
  | n :: ns =>
      match findByName d n with
      | none => .error (.pluginNotFound n iface)
      | some p =>
          match lookupNames d iface ns with
          | .error e => .error e
          | .ok l => .ok (p :: l)

/-- Python `retrieve_named_plugins(interface, names)` given the already-retrieved
dict `d`: expand the names against the dict keys, then look each one up. -/
def retrieve_named_plugins (d : List Plugin) (names : List String)
    (iface : String) : Except PluginError (List Plugin) :=
  lookupNames d iface (expand_names (d.map Plugin.name) names)

/-! ## Import isolation (`_isolateImports`, src/exocet/_exocet.py lines 398-434)

The process-wide resolution state manipulated by `_isolateImports`:
`sys.meta_path` (entries abstracted as numeric tags), `sys.path_hooks`,
the contents of `sys.modules`, and the `__import__` builtin (a numeric
tag).  `_PEP302Mapper._oldSysModules` is a class attribute, i.e. a single
process-wide slot, carried alongside. -/
structure SysState : Type where
  metaPath : List Nat
  pathHooks : List Nat
  modules : List (String × Nat)
  importFn : Nat
deriving DecidableEq, Repr

structure ProcState : Type where
  sys : SysState
  oldSysModulesCls : List (String × Nat)
deriving DecidableEq, Repr

/-- Python `_isolateImports(mf, f, *a, **kw)`.  `mfFinder` is the `MakerFinder`
installed as the sole meta-path entry, `mfImport` its `xocImport` bound
method installed as `__import__`, and `mapper` its mapper (consulted for
the `warnings` special case).  The body `f` transforms the process state
and returns `none` on an exception; the `finally` block runs on both
paths.  Note that the restoration of `sys.modules` reads the class slot
`_PEP302Mapper._oldSysModules` as left behind by the body, not the local
copy saved on entry. -/
def isolateImports {α : Type} (mfFinder mfImport : Nat) (mapper : Mapper Nat)
    (f : ProcState → Option α × ProcState) (s : ProcState) :
    Option α × ProcState :=
  let oldMetaPath := s.sys.metaPath
  let oldPathHooks := s.sys.pathHooks
  let oldImport := s.sys.importFn
  let isolatedModules : List (String × Nat) :=
    if mapper.contains "warnings" then
      match mapper.lookup "warnings" with
      | some w => [("warnings", w)]
      | none => []
    else []
  let s1 : ProcState :=
    { sys := { metaPath := [mfFinder], pathHooks := [],
               modules := isolatedModules, importFn := mfImport },
      oldSysModulesCls := s.sys.modules }
  let r := f s1
  (r.1,
    { sys := { metaPath := oldMetaPath, pathHooks := oldPathHooks,
               modules := r.2.oldSysModulesCls, importFn := oldImport },
      oldSysModulesCls := r.2.oldSysModulesCls })

/-- A `load` whose module body performs a nested isolated load, as
`redirectLocalImports` triggers for function-level imports, starting from
a process state whose `sys.modules` holds one module. -/
def nestedLoadDemo : Option Nat × ProcState :=
  isolateImports 20 21 emptyMapper
    (fun s => isolateImports 10 11 emptyMapper (fun s1 => (some 0, s1)) s)
    ⟨⟨[1], [2], [("m", 7)], 3⟩, []⟩

/-- The last candidate in discovery order that passes verification and
carries the given name. -/
def lastVerified (verify : Plugin → Bool) : List Plugin → String → Option Plugin
  | [], _ => none
  | p :: ps, n =>
      match lastVerified verify ps n with
      | some q => some q
      | none => if verify p && p.name == n then some p else none

/-! ## Example plugins used by the claims about `sort_plugins` -/
/-- Plugin a with before = set(["b"]) (b must come before a). -/
def chainA : Plugin := ⟨"a", ["b"], []⟩

/-- Plugin b with before = set(["c"]). -/
def chainB : Plugin := ⟨"b", ["c"], []⟩

/-- Plugin c with no edges. -/
def chainC : Plugin := ⟨"c", [], []⟩

/-- Plugin c closing the before-cycle a → b → c → a. -/
def rawC : Plugin := ⟨"c", ["a"], []⟩

/-- The 3-cycle after edge mirroring: every `after` set is non-empty. -/
def cycA : Plugin := ⟨"a", ["b"], ["c"]⟩

def cycB : Plugin := ⟨"b", ["c"], ["a"]⟩

def cycC : Plugin := ⟨"c", ["a"], ["b"]⟩

/-- The two conflicting candidates for the C10 witness. -/
def dupA : Plugin := ⟨"n", ["x"], []⟩

def dupB : Plugin := ⟨"n", [], ["y"]⟩

/-! ## Lemmas and claim theorems -/

/-- Monotonicity: `visitNamesGo` is monotone in the visitor. -/
theorem visitNamesGo_mono {ps : List Plugin}
    {v v' : Plugin → List Plugin → Option (List Plugin)}
    (hv : ∀ q acc r, v q acc = some r → v' q acc = some r) :
    ∀ ns l r, visitNamesGo ps v ns l = some r → visitNamesGo ps v' ns l = some r := by
  intro ns
  induction ns with
  | nil => intro l r h; exact h
  | cons n ns ih =>
      intro l r h
      rw [visitNamesGo] at h ⊢
      cases hfind : findPlugin ps n with
      | none => rw [hfind] at h; exact ih l r h
      | some q =>
          rw [hfind] at h
          replace h : (match v q l with
            | none => none
            | some l' => visitNamesGo ps v ns l') = some r := h
          show (match v' q l with
            | none => none
            | some l' => visitNamesGo ps v' ns l') = some r
          cases hq : v q l with
          | none => rw [hq] at h; simp at h
          | some l' =>
              rw [hq] at h
              rw [hv q l l' hq]
              exact ih l' r h

/-- A successful `visit` run is stable under extra fuel: the fuel bound
only models the recursion limit. -/
theorem visit_mono (ps : List Plugin) :
    ∀ fuel p l r, visit ps fuel p l = some r → visit ps (fuel + 1) p l = some r := by
  intro fuel
  induction fuel with
  | zero => intro p l r h; simp [visit] at h
  | succ g ih =>
      intro p l r h
      rw [visit] at h ⊢
      by_cases hmem : p ∈ l
      · simpa [hmem] using h
      · simp only [hmem, if_false] at h ⊢
        cases hns : visitNamesGo ps (visit ps g) p.before l with
        | none => rw [hns] at h; simp at h
        | some l' =>
            rw [hns] at h
            rw [visitNamesGo_mono (fun q acc r hr => ih q acc r hr) p.before l l' hns]
            exact h

/-- Stability: `sortSeeds` is stable under extra fuel. -/
theorem sortSeeds_mono (ps : List Plugin) (fuel : Nat) :
    ∀ rest l r, sortSeeds ps fuel rest l = some r →
      sortSeeds ps (fuel + 1) rest l = some r := by
  intro rest
  induction rest with
  | nil => intro l r h; simpa [sortSeeds] using h
  | cons p rest ih =>
      intro l r h
      rw [sortSeeds] at h ⊢
      by_cases hskip : p.after.any (fun n => hasName ps n)
      · simp only [hskip, if_true] at h ⊢
        exact ih l r h
      · simp only [hskip, if_false] at h ⊢
        cases hvp : visit ps fuel p l with
        | none => rw [hvp] at h; exact absurd h (by simp)
        | some l' =>
            rw [hvp] at h
            rw [visit_mono ps fuel p l l' hvp]
            exact ih l' r h

/-- A successful `sort_plugins` result is stable under extra fuel. -/
theorem sort_plugins_mono_le (ps : List Plugin) (f₀ fuel : Nat) (hle : f₀ ≤ fuel)
    (r : List Plugin) (h : sort_plugins f₀ ps = some r) :
    sort_plugins fuel ps = some r := by
  induction fuel with
  | zero => cases Nat.le_zero.mp hle; exact h
  | succ g ihg =>
      rcases Nat.lt_or_ge f₀ (g + 1) with hlt | hge
      · exact sortSeeds_mono ps g ps [] r (ihg (Nat.lt_succ_iff.mp hlt))
      · cases Nat.le_antisymm hle hge; exact h

theorem mem_insertName_self (x : String) (l : List String) : x ∈ insertName x l := by
  unfold insertName; split <;> simp_all

theorem mem_insertName_of_mem {y : String} {l : List String} (x : String)
    (h : y ∈ l) : y ∈ insertName x l := by
  unfold insertName; split <;> simp_all

theorem eq_or_mem_of_mem_insertName {y x : String} {l : List String}
    (h : y ∈ insertName x l) : y = x ∨ y ∈ l := by
  unfold insertName at h
  split at h
  · exact Or.inr h
  · rcases List.mem_append.mp h with h1 | h2
    · exact Or.inr h1
    · simp only [List.mem_singleton] at h2
      exact Or.inl h2

theorem mem_discardName {y x : String} {l : List String} :
    y ∈ discardName x l ↔ y ∈ l ∧ y ≠ x := by
  unfold discardName; simp

theorem findByName_eq_some_name {d : List Plugin} {n : String} {p : Plugin}
    (h : findByName d n = some p) : p.name = n := by
  have := List.find?_some h
  simpa using this

theorem hasKey_eq_isSome (d : List Plugin) (n : String) :
    hasKey d n = (findByName d n).isSome := by
  unfold hasKey findByName
  induction d with
  | nil => rfl
  | cons p d ih =>
      simp only [List.any_cons, List.find?_cons]
      by_cases hp : p.name = n <;> simp_all

theorem findByName_updatePlugin (d : List Plugin) (t : String) (f : Plugin → Plugin)
    (hf : ∀ p, (f p).name = p.name) (n : String) :
    findByName (updatePlugin d t f) n =
      (findByName d n).map (fun p => if p.name = t then f p else p) := by
  induction d with
  | nil => rfl
  | cons p d ih =>
      unfold updatePlugin findByName at ih ⊢
      simp only [List.map_cons, List.find?_cons]
      have hname : (if p.name = t then f p else p).name = p.name := by
        split <;> simp [hf]
      by_cases hp : p.name = n
      · subst hp
        simp [hname]
      · simp only [hname, hp]
        simpa using ih

theorem hasKey_updatePlugin (d : List Plugin) (t : String) (f : Plugin → Plugin)
    (hf : ∀ p, (f p).name = p.name) (n : String) :
    hasKey (updatePlugin d t f) n = hasKey d n := by
  rw [hasKey_eq_isSome, hasKey_eq_isSome, findByName_updatePlugin d t f hf n]
  cases findByName d n <;> rfl

theorem afterOf_updatePlugin (d : List Plugin) (t : String) (f : Plugin → Plugin)
    (hf : ∀ p, (f p).name = p.name) (n : String) :
    afterOf (updatePlugin d t f) n =
      match findByName d n with
      | none => []
      | some p => if n = t then (f p).after else p.after := by
  unfold afterOf
  rw [findByName_updatePlugin d t f hf n]
  cases hfind : findByName d n with
  | none => rfl
  | some p =>
      have hp : p.name = n := findByName_eq_some_name hfind
      simp only [hp, Option.map_some', Option.getD_some]
      split <;> rfl

theorem beforeOf_updatePlugin (d : List Plugin) (t : String) (f : Plugin → Plugin)
    (hf : ∀ p, (f p).name = p.name) (n : String) :
    beforeOf (updatePlugin d t f) n =
      match findByName d n with
      | none => []
      | some p => if n = t then (f p).before else p.before := by
  unfold beforeOf
  rw [findByName_updatePlugin d t f hf n]
  cases hfind : findByName d n with
  | none => rfl
  | some p =>
      have hp : p.name = n := findByName_eq_some_name hfind
      simp only [hp, Option.map_some', Option.getD_some]
      split <;> rfl

theorem afterOf_eq_match (d : List Plugin) (n : String) :
    afterOf d n = match findByName d n with
      | none => []
      | some p => p.after := by
  unfold afterOf; cases findByName d n <;> rfl

theorem beforeOf_eq_match (d : List Plugin) (n : String) :
    beforeOf d n = match findByName d n with
      | none => []
      | some p => p.before := by
  unfold beforeOf; cases findByName d n <;> rfl

theorem hasKey_addAfterEdge (d : List Plugin) (t x n : String) :
    hasKey (addAfterEdge d t x) n = hasKey d n :=
  hasKey_updatePlugin d t (fun p => { p with after := insertName x p.after }) (fun _ => rfl) n

theorem hasKey_addBeforeEdge (d : List Plugin) (t x n : String) :
    hasKey (addBeforeEdge d t x) n = hasKey d n :=
  hasKey_updatePlugin d t (fun p => { p with before := insertName x p.before }) (fun _ => rfl) n

theorem hasKey_dropBeforeEdge (d : List Plugin) (t x n : String) :
    hasKey (dropBeforeEdge d t x) n = hasKey d n :=
  hasKey_updatePlugin d t (fun p => { p with before := discardName x p.before }) (fun _ => rfl) n

theorem hasKey_dropAfterEdge (d : List Plugin) (t x n : String) :
    hasKey (dropAfterEdge d t x) n = hasKey d n :=
  hasKey_updatePlugin d t (fun p => { p with after := discardName x p.after }) (fun _ => rfl) n

theorem afterOf_some {d : List Plugin} {n : String} {p : Plugin}
    (hfind : findByName d n = some p) : afterOf d n = p.after := by
  unfold afterOf; rw [hfind]; rfl

theorem afterOf_none {d : List Plugin} {n : String}
    (hfind : findByName d n = none) : afterOf d n = [] := by
  unfold afterOf; rw [hfind]; rfl

theorem beforeOf_some {d : List Plugin} {n : String} {p : Plugin}
    (hfind : findByName d n = some p) : beforeOf d n = p.before := by
  unfold beforeOf; rw [hfind]; rfl

theorem beforeOf_none {d : List Plugin} {n : String}
    (hfind : findByName d n = none) : beforeOf d n = [] := by
  unfold beforeOf; rw [hfind]; rfl

theorem beforeOf_addAfterEdge (d : List Plugin) (t x n : String) :
    beforeOf (addAfterEdge d t x) n = beforeOf d n := by
  rw [addAfterEdge, beforeOf_updatePlugin d t (fun p => { p with after := insertName x p.after }) (fun _ => rfl) n]
  cases hfind : findByName d n with
  | none => rw [beforeOf_none hfind]
  | some p =>
      rw [beforeOf_some hfind]
      show (if n = t then p.before else p.before) = p.before
      split <;> rfl

theorem afterOf_addBeforeEdge (d : List Plugin) (t x n : String) :
    afterOf (addBeforeEdge d t x) n = afterOf d n := by
  rw [addBeforeEdge, afterOf_updatePlugin d t (fun p => { p with before := insertName x p.before }) (fun _ => rfl) n]
  cases hfind : findByName d n with
  | none => rw [afterOf_none hfind]
  | some p =>
      rw [afterOf_some hfind]
      show (if n = t then p.after else p.after) = p.after
      split <;> rfl

theorem afterOf_dropBeforeEdge (d : List Plugin) (t x n : String) :
    afterOf (dropBeforeEdge d t x) n = afterOf d n := by
  rw [dropBeforeEdge, afterOf_updatePlugin d t (fun p => { p with before := discardName x p.before }) (fun _ => rfl) n]
  cases hfind : findByName d n with
  | none => rw [afterOf_none hfind]
  | some p =>
      rw [afterOf_some hfind]
      show (if n = t then p.after else p.after) = p.after
      split <;> rfl

theorem beforeOf_dropAfterEdge (d : List Plugin) (t x n : String) :
    beforeOf (dropAfterEdge d t x) n = beforeOf d n := by
  rw [dropAfterEdge, beforeOf_updatePlugin d t (fun p => { p with after := discardName x p.after }) (fun _ => rfl) n]
  cases hfind : findByName d n with
  | none => rw [beforeOf_none hfind]
  | some p =>
      rw [beforeOf_some hfind]
      show (if n = t then p.before else p.before) = p.before
      split <;> rfl

theorem mem_afterOf_addAfterEdge {d : List Plugin} {y n : String} (t x : String)
    (h : y ∈ afterOf d n) : y ∈ afterOf (addAfterEdge d t x) n := by
  rw [addAfterEdge, afterOf_updatePlugin d t (fun p => { p with after := insertName x p.after }) (fun _ => rfl) n]
  cases hfind : findByName d n with
  | none => rw [afterOf_none hfind] at h; simp at h
  | some p =>
      rw [afterOf_some hfind] at h
      show y ∈ if n = t then insertName x p.after else p.after
      split
      · exact mem_insertName_of_mem x h
      · exact h

theorem mem_afterOf_addAfterEdge_rev {d : List Plugin} {y t x n : String}
    (h : y ∈ afterOf (addAfterEdge d t x) n) : y = x ∨ y ∈ afterOf d n := by
  rw [addAfterEdge, afterOf_updatePlugin d t (fun p => { p with after := insertName x p.after }) (fun _ => rfl) n] at h
  cases hfind : findByName d n with
  | none => rw [hfind] at h; simp at h
  | some p =>
      rw [hfind] at h
      rw [afterOf_some hfind]
      replace h : y ∈ if n = t then insertName x p.after else p.after := h
      split at h
      · exact eq_or_mem_of_mem_insertName h
      · exact Or.inr h

theorem mem_afterOf_addAfterEdge_self {d : List Plugin} {t : String} (x : String)
    (hkey : hasKey d t = true) : x ∈ afterOf (addAfterEdge d t x) t := by
  rw [hasKey_eq_isSome] at hkey
  rw [addAfterEdge, afterOf_updatePlugin d t (fun p => { p with after := insertName x p.after }) (fun _ => rfl) t]
  cases hfind : findByName d t with
  | none => rw [hfind] at hkey; simp at hkey
  | some p =>
      show x ∈ if t = t then insertName x p.after else p.after
      rw [if_pos rfl]
      exact mem_insertName_self x p.after

theorem mem_beforeOf_addBeforeEdge {d : List Plugin} {y n : String} (t x : String)
    (h : y ∈ beforeOf d n) : y ∈ beforeOf (addBeforeEdge d t x) n := by
  rw [addBeforeEdge, beforeOf_updatePlugin d t (fun p => { p with before := insertName x p.before }) (fun _ => rfl) n]
  cases hfind : findByName d n with
  | none => rw [beforeOf_none hfind] at h; simp at h
  | some p =>
      rw [beforeOf_some hfind] at h
      show y ∈ if n = t then insertName x p.before else p.before
      split
      · exact mem_insertName_of_mem x h
      · exact h

theorem mem_beforeOf_addBeforeEdge_rev {d : List Plugin} {y t x n : String}
    (h : y ∈ beforeOf (addBeforeEdge d t x) n) : y = x ∨ y ∈ beforeOf d n := by
  rw [addBeforeEdge, beforeOf_updatePlugin d t (fun p => { p with before := insertName x p.before }) (fun _ => rfl) n] at h
  cases hfind : findByName d n with
  | none => rw [hfind] at h; simp at h
  | some p =>
      rw [hfind] at h
      rw [beforeOf_some hfind]
      replace h : y ∈ if n = t then insertName x p.before else p.before := h
      split at h
      · exact eq_or_mem_of_mem_insertName h
      · exact Or.inr h

theorem mem_beforeOf_addBeforeEdge_self {d : List Plugin} {t : String} (x : String)
    (hkey : hasKey d t = true) : x ∈ beforeOf (addBeforeEdge d t x) t := by
  rw [hasKey_eq_isSome] at hkey
  rw [addBeforeEdge, beforeOf_updatePlugin d t (fun p => { p with before := insertName x p.before }) (fun _ => rfl) t]
  cases hfind : findByName d t with
  | none => rw [hfind] at hkey; simp at hkey
  | some p =>
      show x ∈ if t = t then insertName x p.before else p.before
      rw [if_pos rfl]
      exact mem_insertName_self x p.before

theorem mem_beforeOf_dropBeforeEdge_rev {d : List Plugin} {y t x n : String}
    (h : y ∈ beforeOf (dropBeforeEdge d t x) n) : y ∈ beforeOf d n := by
  rw [dropBeforeEdge, beforeOf_updatePlugin d t (fun p => { p with before := discardName x p.before }) (fun _ => rfl) n] at h
  cases hfind : findByName d n with
  | none => rw [hfind] at h; simp at h
  | some p =>
      rw [hfind] at h
      rw [beforeOf_some hfind]
      replace h : y ∈ if n = t then discardName x p.before else p.before := h
      split at h
      · exact (mem_discardName.mp h).1
      · exact h

theorem mem_beforeOf_dropBeforeEdge {d : List Plugin} {y n : String} (t x : String)
    (h : y ∈ beforeOf d n) (hyx : y ≠ x) : y ∈ beforeOf (dropBeforeEdge d t x) n := by
  rw [dropBeforeEdge, beforeOf_updatePlugin d t (fun p => { p with before := discardName x p.before }) (fun _ => rfl) n]
  cases hfind : findByName d n with
  | none => rw [beforeOf_none hfind] at h; simp at h
  | some p =>
      rw [beforeOf_some hfind] at h
      show y ∈ if n = t then discardName x p.before else p.before
      split
      · exact mem_discardName.mpr ⟨h, hyx⟩
      · exact h

theorem not_mem_beforeOf_dropBeforeEdge_self (d : List Plugin) (t x : String) :
    x ∉ beforeOf (dropBeforeEdge d t x) t := by
  rw [dropBeforeEdge, beforeOf_updatePlugin d t (fun p => { p with before := discardName x p.before }) (fun _ => rfl) t]
  cases hfind : findByName d t with
  | none => simp
  | some p =>
      show x ∉ if t = t then discardName x p.before else p.before
      rw [if_pos rfl]
      intro h
      exact (mem_discardName.mp h).2 rfl

theorem mem_afterOf_dropAfterEdge_rev {d : List Plugin} {y t x n : String}
    (h : y ∈ afterOf (dropAfterEdge d t x) n) : y ∈ afterOf d n := by
  rw [dropAfterEdge, afterOf_updatePlugin d t (fun p => { p with after := discardName x p.after }) (fun _ => rfl) n] at h
  cases hfind : findByName d n with
  | none => rw [hfind] at h; simp at h
  | some p =>
      rw [hfind] at h
      rw [afterOf_some hfind]
      replace h : y ∈ if n = t then discardName x p.after else p.after := h
      split at h
      · exact (mem_discardName.mp h).1
      · exact h

theorem mem_afterOf_dropAfterEdge {d : List Plugin} {y n : String} (t x : String)
    (h : y ∈ afterOf d n) (hyx : y ≠ x) : y ∈ afterOf (dropAfterEdge d t x) n := by
  rw [dropAfterEdge, afterOf_updatePlugin d t (fun p => { p with after := discardName x p.after }) (fun _ => rfl) n]
  cases hfind : findByName d n with
  | none => rw [afterOf_none hfind] at h; simp at h
  | some p =>
      rw [afterOf_some hfind] at h
      show y ∈ if n = t then discardName x p.after else p.after
      split
      · exact mem_discardName.mpr ⟨h, hyx⟩
      · exact h

theorem not_mem_afterOf_dropAfterEdge_self (d : List Plugin) (t x : String) :
    x ∉ afterOf (dropAfterEdge d t x) t := by
  rw [dropAfterEdge, afterOf_updatePlugin d t (fun p => { p with after := discardName x p.after }) (fun _ => rfl) t]
  cases hfind : findByName d t with
  | none => simp
  | some p =>
      show x ∉ if t = t then discardName x p.after else p.after
      rw [if_pos rfl]
      intro h
      exact (mem_discardName.mp h).2 rfl

theorem beforeOf_dropBeforeEdge_other {d : List Plugin} {t n : String} (x : String)
    (hnt : n ≠ t) : beforeOf (dropBeforeEdge d t x) n = beforeOf d n := by
  rw [dropBeforeEdge, beforeOf_updatePlugin d t (fun p => { p with before := discardName x p.before }) (fun _ => rfl) n]
  cases hfind : findByName d n with
  | none => rw [beforeOf_none hfind]
  | some p =>
      rw [beforeOf_some hfind]
      show (if n = t then discardName x p.before else p.before) = p.before
      rw [if_neg hnt]

theorem afterOf_dropAfterEdge_other {d : List Plugin} {t n : String} (x : String)
    (hnt : n ≠ t) : afterOf (dropAfterEdge d t x) n = afterOf d n := by
  rw [dropAfterEdge, afterOf_updatePlugin d t (fun p => { p with after := discardName x p.after }) (fun _ => rfl) n]
  cases hfind : findByName d n with
  | none => rw [afterOf_none hfind]
  | some p =>
      rw [afterOf_some hfind]
      show (if n = t then discardName x p.after else p.after) = p.after
      rw [if_neg hnt]

theorem hasKey_mirrorBeforeStep (q : String) (d : List Plugin) (e n : String) :
    hasKey (mirrorBeforeStep q d e) n = hasKey d n := by
  unfold mirrorBeforeStep
  split
  · exact hasKey_addAfterEdge d e q n
  · exact hasKey_dropBeforeEdge d q e n

theorem hasKey_mirrorAfterStep (q : String) (d : List Plugin) (e n : String) :
    hasKey (mirrorAfterStep q d e) n = hasKey d n := by
  unfold mirrorAfterStep
  split
  · exact hasKey_addBeforeEdge d e q n
  · exact hasKey_dropAfterEdge d q e n

theorem hasKey_foldl_mirrorBefore (q : String) (es : List String) :
    ∀ (d : List Plugin) (n : String),
      hasKey (es.foldl (mirrorBeforeStep q) d) n = hasKey d n := by
  induction es with
  | nil => intro d n; rfl
  | cons a es ih =>
      intro d n
      rw [List.foldl_cons, ih, hasKey_mirrorBeforeStep]

theorem hasKey_foldl_mirrorAfter (q : String) (es : List String) :
    ∀ (d : List Plugin) (n : String),
      hasKey (es.foldl (mirrorAfterStep q) d) n = hasKey d n := by
  induction es with
  | nil => intro d n; rfl
  | cons a es ih =>
      intro d n
      rw [List.foldl_cons, ih, hasKey_mirrorAfterStep]

theorem hasKey_processPlugin (d : List Plugin) (q n : String) :
    hasKey (processPlugin d q) n = hasKey d n := by
  unfold processPlugin processAfterPhase
  rw [hasKey_foldl_mirrorAfter, hasKey_foldl_mirrorBefore]

theorem hasKey_foldl_process (names : List String) :
    ∀ (d : List Plugin) (n : String),
      hasKey (names.foldl processPlugin d) n = hasKey d n := by
  induction names with
  | nil => intro d n; rfl
  | cons a names ih =>
      intro d n
      rw [List.foldl_cons, ih, hasKey_processPlugin]

/-! Step-level preservation facts used by the edge-mirroring invariants.
`mbs` abbreviates `mirrorBeforeStep`, `mas` abbreviates `mirrorAfterStep`. -/
theorem presAfter_mbs {d : List Plugin} {y n : String} (q e : String)
    (h : y ∈ afterOf d n) : y ∈ afterOf (mirrorBeforeStep q d e) n := by
  unfold mirrorBeforeStep
  by_cases hc : hasKey d e = true
  · rw [if_pos hc]; exact mem_afterOf_addAfterEdge e q h
  · rw [if_neg hc, afterOf_dropBeforeEdge]; exact h

theorem presBefore_mas {d : List Plugin} {y n : String} (q e : String)
    (h : y ∈ beforeOf d n) : y ∈ beforeOf (mirrorAfterStep q d e) n := by
  unfold mirrorAfterStep
  by_cases hc : hasKey d e = true
  · rw [if_pos hc]; exact mem_beforeOf_addBeforeEdge e q h
  · rw [if_neg hc, beforeOf_dropAfterEdge]; exact h

theorem presAfter_mas_key {d : List Plugin} {y n : String} (q e : String)
    (hyk : hasKey d y = true) (h : y ∈ afterOf d n) :
    y ∈ afterOf (mirrorAfterStep q d e) n := by
  unfold mirrorAfterStep
  by_cases hc : hasKey d e = true
  · rw [if_pos hc, afterOf_addBeforeEdge]; exact h
  · rw [if_neg hc]
    refine mem_afterOf_dropAfterEdge q e h ?_
    intro heq
    rw [heq] at hyk
    exact hc hyk

theorem presAfter_mas_ne {d : List Plugin} {y n : String} (q e : String)
    (hqn : q ≠ n) (h : y ∈ afterOf d n) : y ∈ afterOf (mirrorAfterStep q d e) n := by
  unfold mirrorAfterStep
  by_cases hc : hasKey d e = true
  · rw [if_pos hc, afterOf_addBeforeEdge]; exact h
  · rw [if_neg hc, afterOf_dropAfterEdge_other e (fun hh => hqn hh.symm)]; exact h

theorem presBefore_mbs_key {d : List Plugin} {y n : String} (q e : String)
    (hyk : hasKey d y = true) (h : y ∈ beforeOf d n) :
    y ∈ beforeOf (mirrorBeforeStep q d e) n := by
  unfold mirrorBeforeStep
  by_cases hc : hasKey d e = true
  · rw [if_pos hc, beforeOf_addAfterEdge]; exact h
  · rw [if_neg hc]
    refine mem_beforeOf_dropBeforeEdge q e h ?_
    intro heq
    rw [heq] at hyk
    exact hc hyk

theorem presBefore_mbs_ne {d : List Plugin} {y n : String} (q e : String)
    (hqn : q ≠ n) (h : y ∈ beforeOf d n) : y ∈ beforeOf (mirrorBeforeStep q d e) n := by
  unfold mirrorBeforeStep
  by_cases hc : hasKey d e = true
  · rw [if_pos hc, beforeOf_addAfterEdge]; exact h
  · rw [if_neg hc, beforeOf_dropBeforeEdge_other e (fun hh => hqn hh.symm)]; exact h

theorem presNotBefore_mbs {d : List Plugin} {y n : String} (q e : String)
    (h : y ∉ beforeOf d n) : y ∉ beforeOf (mirrorBeforeStep q d e) n := by
  unfold mirrorBeforeStep
  by_cases hc : hasKey d e = true
  · rw [if_pos hc, beforeOf_addAfterEdge]; exact h
  · rw [if_neg hc]
    intro hmem
    exact h (mem_beforeOf_dropBeforeEdge_rev hmem)

theorem presNotBefore_mas {d : List Plugin} {y n : String} (q e : String)
    (hyk : hasKey d y = false) (hqk : hasKey d q = true)
    (h : y ∉ beforeOf d n) : y ∉ beforeOf (mirrorAfterStep q d e) n := by
  unfold mirrorAfterStep
  by_cases hc : hasKey d e = true
  · rw [if_pos hc]
    intro hmem
    rcases mem_beforeOf_addBeforeEdge_rev hmem with heq | hmem'
    · rw [heq] at hyk; rw [hyk] at hqk; exact Bool.false_ne_true hqk
    · exact h hmem'
  · rw [if_neg hc, beforeOf_dropAfterEdge]; exact h

theorem presNotAfter_mas {d : List Plugin} {y n : String} (q e : String)
    (h : y ∉ afterOf d n) : y ∉ afterOf (mirrorAfterStep q d e) n := by
  unfold mirrorAfterStep
  by_cases hc : hasKey d e = true
  · rw [if_pos hc, afterOf_addBeforeEdge]; exact h
  · rw [if_neg hc]
    intro hmem
    exact h (mem_afterOf_dropAfterEdge_rev hmem)

theorem presNotAfter_mbs {d : List Plugin} {y n : String} (q e : String)
    (hyk : hasKey d y = false) (hqk : hasKey d q = true)
    (h : y ∉ afterOf d n) : y ∉ afterOf (mirrorBeforeStep q d e) n := by
  unfold mirrorBeforeStep
  by_cases hc : hasKey d e = true
  · rw [if_pos hc]
    intro hmem
    rcases mem_afterOf_addAfterEdge_rev hmem with heq | hmem'
    · rw [heq] at hyk; rw [hyk] at hqk; exact Bool.false_ne_true hqk
    · exact h hmem'
  · rw [if_neg hc, afterOf_dropBeforeEdge]; exact h

/-! Fold-level preservation of the same facts over the two inner loops of
`add_plugin_edges`. -/
theorem presAfter_foldl_mbs {y n : String} (q : String) (es : List String) :
    ∀ d : List Plugin, y ∈ afterOf d n →
      y ∈ afterOf (es.foldl (mirrorBeforeStep q) d) n := by
  induction es with
  | nil => intro d h; exact h
  | cons a es ih =>
      intro d h
      rw [List.foldl_cons]
      exact ih _ (presAfter_mbs q a h)

theorem presBefore_foldl_mas {y n : String} (q : String) (es : List String) :
    ∀ d : List Plugin, y ∈ beforeOf d n →
      y ∈ beforeOf (es.foldl (mirrorAfterStep q) d) n := by
  induction es with
  | nil => intro d h; exact h
  | cons a es ih =>
      intro d h
      rw [List.foldl_cons]
      exact ih _ (presBefore_mas q a h)

theorem presAfter_foldl_mas_key {y n : String} (q : String) (es : List String) :
    ∀ d : List Plugin, hasKey d y = true → y ∈ afterOf d n →
      y ∈ afterOf (es.foldl (mirrorAfterStep q) d) n := by
  induction es with
  | nil => intro d _ h; exact h
  | cons a es ih =>
      intro d hyk h
      rw [List.foldl_cons]
      exact ih _ (by rw [hasKey_mirrorAfterStep]; exact hyk)
        (presAfter_mas_key q a hyk h)

theorem presAfter_foldl_mas_ne {y n : String} (q : String) (hqn : q ≠ n)
    (es : List String) :
    ∀ d : List Plugin, y ∈ afterOf d n →
      y ∈ afterOf (es.foldl (mirrorAfterStep q) d) n := by
  induction es with
  | nil => intro d h; exact h
  | cons a es ih =>
      intro d h
      rw [List.foldl_cons]
      exact ih _ (presAfter_mas_ne q a hqn h)

theorem presBefore_foldl_mbs_key {y n : String} (q : String) (es : List String) :
    ∀ d : List Plugin, hasKey d y = true → y ∈ beforeOf d n →
      y ∈ beforeOf (es.foldl (mirrorBeforeStep q) d) n := by
  induction es with
  | nil => intro d _ h; exact h
  | cons a es ih =>
      intro d hyk h
      rw [List.foldl_cons]
      exact ih _ (by rw [hasKey_mirrorBeforeStep]; exact hyk)
        (presBefore_mbs_key q a hyk h)

theorem presBefore_foldl_mbs_ne {y n : String} (q : String) (hqn : q ≠ n)
    (es : List String) :
    ∀ d : List Plugin, y ∈ beforeOf d n →
      y ∈ beforeOf (es.foldl (mirrorBeforeStep q) d) n := by
  induction es with
  | nil => intro d h; exact h
  | cons a es ih =>
      intro d h
      rw [List.foldl_cons]
      exact ih _ (presBefore_mbs_ne q a hqn h)

theorem presNotBefore_foldl_mbs {y n : String} (q : String) (es : List String) :
    ∀ d : List Plugin, y ∉ beforeOf d n →
      y ∉ beforeOf (es.foldl (mirrorBeforeStep q) d) n := by
  induction es with
  | nil => intro d h; exact h
  | cons a es ih =>
      intro d h
      rw [List.foldl_cons]
      exact ih _ (presNotBefore_mbs q a h)

theorem presNotBefore_foldl_mas {y n : String} (q : String) (es : List String) :
    ∀ d : List Plugin, hasKey d y = false → hasKey d q = true → y ∉ beforeOf d n →
      y ∉ beforeOf (es.foldl (mirrorAfterStep q) d) n := by
  induction es with
  | nil => intro d _ _ h; exact h
  | cons a es ih =>
      intro d hyk hqk h
      rw [List.foldl_cons]
      exact ih _ (by rw [hasKey_mirrorAfterStep]; exact hyk)
        (by rw [hasKey_mirrorAfterStep]; exact hqk)
        (presNotBefore_mas q a hyk hqk h)

theorem presNotAfter_foldl_mas {y n : String} (q : String) (es : List String) :
    ∀ d : List Plugin, y ∉ afterOf d n →
      y ∉ afterOf (es.foldl (mirrorAfterStep q) d) n := by
  induction es with
  | nil => intro d h; exact h
  | cons a es ih =>
      intro d h
      rw [List.foldl_cons]
      exact ih _ (presNotAfter_mas q a h)

theorem presNotAfter_foldl_mbs {y n : String} (q : String) (es : List String) :
    ∀ d : List Plugin, hasKey d y = false → hasKey d q = true → y ∉ afterOf d n →
      y ∉ afterOf (es.foldl (mirrorBeforeStep q) d) n := by
  induction es with
  | nil => intro d _ _ h; exact h
  | cons a es ih =>
      intro d hyk hqk h
      rw [List.foldl_cons]
      exact ih _ (by rw [hasKey_mirrorBeforeStep]; exact hyk)
        (by rw [hasKey_mirrorBeforeStep]; exact hqk)
        (presNotAfter_mbs q a hyk hqk h)

/-! Establishment of the mirror facts when the plugin owning the edge is
processed. -/
theorem estAfter_foldl_mbs {e : String} (pname : String) (es : List String) :
    ∀ d : List Plugin, e ∈ es → hasKey d e = true →
      pname ∈ afterOf (es.foldl (mirrorBeforeStep pname) d) e := by
  induction es with
  | nil => intro d h; simp at h
  | cons a es ih =>
      intro d hmem hek
      rw [List.foldl_cons]
      by_cases hae : a = e
      · subst hae
        have h1 : pname ∈ afterOf (mirrorBeforeStep pname d a) a := by
          unfold mirrorBeforeStep
          rw [if_pos hek]
          exact mem_afterOf_addAfterEdge_self pname hek
        exact presAfter_foldl_mbs pname es _ h1
      · have hmem' : e ∈ es := by
          rcases List.mem_cons.mp hmem with h | h
          · exact absurd h.symm hae
          · exact h
        exact ih _ hmem' (by rw [hasKey_mirrorBeforeStep]; exact hek)

theorem estNotBefore_foldl_mbs {e : String} (pname : String) (es : List String) :
    ∀ d : List Plugin, e ∈ es → hasKey d e = false →
      e ∉ beforeOf (es.foldl (mirrorBeforeStep pname) d) pname := by
  induction es with
  | nil => intro d h; simp at h
  | cons a es ih =>
      intro d hmem hek
      rw [List.foldl_cons]
      by_cases hae : a = e
      · subst hae
        have h1 : a ∉ beforeOf (mirrorBeforeStep pname d a) pname := by
          unfold mirrorBeforeStep
          rw [if_neg (by rw [hek]; exact Bool.false_ne_true)]
          exact not_mem_beforeOf_dropBeforeEdge_self d pname a
        exact presNotBefore_foldl_mbs pname es _ h1
      · have hmem' : e ∈ es := by
          rcases List.mem_cons.mp hmem with h | h
          · exact absurd h.symm hae
          · exact h
        exact ih _ hmem' (by rw [hasKey_mirrorBeforeStep]; exact hek)

theorem estBefore_foldl_mas {e : String} (pname : String) (es : List String) :
    ∀ d : List Plugin, e ∈ es → hasKey d e = true →
      pname ∈ beforeOf (es.foldl (mirrorAfterStep pname) d) e := by
  induction es with
  | nil => intro d h; simp at h
  | cons a es ih =>
      intro d hmem hek
      rw [List.foldl_cons]
      by_cases hae : a = e
      · subst hae
        have h1 : pname ∈ beforeOf (mirrorAfterStep pname d a) a := by
          unfold mirrorAfterStep
          rw [if_pos hek]
          exact mem_beforeOf_addBeforeEdge_self pname hek
        exact presBefore_foldl_mas pname es _ h1
      · have hmem' : e ∈ es := by
          rcases List.mem_cons.mp hmem with h | h
          · exact absurd h.symm hae
          · exact h
        exact ih _ hmem' (by rw [hasKey_mirrorAfterStep]; exact hek)

theorem estNotAfter_foldl_mas {e : String} (pname : String) (es : List String) :
    ∀ d : List Plugin, e ∈ es → hasKey d e = false →
      e ∉ afterOf (es.foldl (mirrorAfterStep pname) d) pname := by
  induction es with
  | nil => intro d h; simp at h
  | cons a es ih =>
      intro d hmem hek
      rw [List.foldl_cons]
      by_cases hae : a = e
      · subst hae
        have h1 : a ∉ afterOf (mirrorAfterStep pname d a) pname := by
          unfold mirrorAfterStep
          rw [if_neg (by rw [hek]; exact Bool.false_ne_true)]
          exact not_mem_afterOf_dropAfterEdge_self d pname a
        exact presNotAfter_foldl_mas pname es _ h1
      · have hmem' : e ∈ es := by
          rcases List.mem_cons.mp hmem with h | h
          · exact absurd h.symm hae
          · exact h
        exact ih _ hmem' (by rw [hasKey_mirrorAfterStep]; exact hek)

/-! Preservation of established mirror facts across the processing of an
arbitrary plugin `q` whose name is a key; `y` is a key for the membership
facts and a non-key for the non-membership facts. -/
theorem presF1_processPlugin {d : List Plugin} {y n : String} (q : String)
    (hyk : hasKey d y = true) (h : y ∈ afterOf d n) :
    y ∈ afterOf (processPlugin d q) n := by
  unfold processPlugin processAfterPhase
  exact presAfter_foldl_mas_key q _ _
    (by rw [hasKey_foldl_mirrorBefore]; exact hyk)
    (presAfter_foldl_mbs q _ d h)

theorem presF2_processPlugin {d : List Plugin} {y n : String} (q : String)
    (hyk : hasKey d y = false) (hqk : hasKey d q = true)
    (h : y ∉ beforeOf d n) : y ∉ beforeOf (processPlugin d q) n := by
  unfold processPlugin processAfterPhase
  exact presNotBefore_foldl_mas q _ _
    (by rw [hasKey_foldl_mirrorBefore]; exact hyk)
    (by rw [hasKey_foldl_mirrorBefore]; exact hqk)
    (presNotBefore_foldl_mbs q _ d h)

theorem presF3_processPlugin {d : List Plugin} {y n : String} (q : String)
    (hyk : hasKey d y = true) (h : y ∈ beforeOf d n) :
    y ∈ beforeOf (processPlugin d q) n := by
  unfold processPlugin processAfterPhase
  exact presBefore_foldl_mas q _ _
    (presBefore_foldl_mbs_key q _ d hyk h)

theorem presF4_processPlugin {d : List Plugin} {y n : String} (q : String)
    (hyk : hasKey d y = false) (hqk : hasKey d q = true)
    (h : y ∉ afterOf d n) : y ∉ afterOf (processPlugin d q) n := by
  unfold processPlugin processAfterPhase
  exact presNotAfter_foldl_mas q _ _
    (presNotAfter_foldl_mbs q _ d hyk hqk h)

theorem growB_processPlugin {d : List Plugin} {y n : String} (q : String)
    (hqn : q ≠ n) (h : y ∈ beforeOf d n) : y ∈ beforeOf (processPlugin d q) n := by
  unfold processPlugin processAfterPhase
  exact presBefore_foldl_mas q _ _ (presBefore_foldl_mbs_ne q hqn _ d h)

theorem growA_processPlugin {d : List Plugin} {y n : String} (q : String)
    (hqn : q ≠ n) (h : y ∈ afterOf d n) : y ∈ afterOf (processPlugin d q) n := by
  unfold processPlugin processAfterPhase
  exact presAfter_foldl_mas_ne q hqn _ _ (presAfter_foldl_mbs q _ d h)

/-! Establishment of the four mirror facts when the plugin owning an edge
is itself processed. -/
theorem estF1_processPlugin {d : List Plugin} {pname e : String}
    (hpk : hasKey d pname = true) (he : e ∈ beforeOf d pname)
    (hek : hasKey d e = true) : pname ∈ afterOf (processPlugin d pname) e := by
  unfold processPlugin processAfterPhase
  exact presAfter_foldl_mas_key pname _ _
    (by rw [hasKey_foldl_mirrorBefore]; exact hpk)
    (estAfter_foldl_mbs pname _ d he hek)

theorem estF2_processPlugin {d : List Plugin} {pname e : String}
    (hpk : hasKey d pname = true) (he : e ∈ beforeOf d pname)
    (hek : hasKey d e = false) : e ∉ beforeOf (processPlugin d pname) pname := by
  unfold processPlugin processAfterPhase
  exact presNotBefore_foldl_mas pname _ _
    (by rw [hasKey_foldl_mirrorBefore]; exact hek)
    (by rw [hasKey_foldl_mirrorBefore]; exact hpk)
    (estNotBefore_foldl_mbs pname _ d he hek)

theorem estF3_processPlugin {d : List Plugin} {pname e : String}
    (he : e ∈ afterOf d pname) (hek : hasKey d e = true) :
    pname ∈ beforeOf (processPlugin d pname) e := by
  unfold processPlugin processAfterPhase
  exact estBefore_foldl_mas pname _ _
    (presAfter_foldl_mbs pname _ d he)
    (by rw [hasKey_foldl_mirrorBefore]; exact hek)

theorem estF4_processPlugin {d : List Plugin} {pname e : String}
    (he : e ∈ afterOf d pname) (hek : hasKey d e = false) :
    e ∉ afterOf (processPlugin d pname) pname := by
  unfold processPlugin processAfterPhase
  exact estNotAfter_foldl_mas pname _ _
    (presAfter_foldl_mbs pname _ d he)
    (by rw [hasKey_foldl_mirrorBefore]; exact hek)

/-! Phase lemmas over the outer `for name, plugin in d.iteritems()` fold. -/
theorem growB_foldl_process {y n : String} (l : List String) :
    ∀ d : List Plugin, (∀ q ∈ l, q ≠ n) → y ∈ beforeOf d n →
      y ∈ beforeOf (l.foldl processPlugin d) n := by
  induction l with
  | nil => intro d _ h; exact h
  | cons a l ih =>
      intro d hql h
      rw [List.foldl_cons]
      exact ih _ (fun q hq => hql q (List.mem_cons_of_mem a hq))
        (growB_processPlugin a (hql a (List.mem_cons_self a l)) h)

theorem growA_foldl_process {y n : String} (l : List String) :
    ∀ d : List Plugin, (∀ q ∈ l, q ≠ n) → y ∈ afterOf d n →
      y ∈ afterOf (l.foldl processPlugin d) n := by
  induction l with
  | nil => intro d _ h; exact h
  | cons a l ih =>
      intro d hql h
      rw [List.foldl_cons]
      exact ih _ (fun q hq => hql q (List.mem_cons_of_mem a hq))
        (growA_processPlugin a (hql a (List.mem_cons_self a l)) h)

theorem presF1_foldl_process {y n : String} (l : List String) :
    ∀ d : List Plugin, hasKey d y = true → y ∈ afterOf d n →
      y ∈ afterOf (l.foldl processPlugin d) n := by
  induction l with
  | nil => intro d _ h; exact h
  | cons a l ih =>
      intro d hyk h
      rw [List.foldl_cons]
      exact ih _ (by rw [hasKey_processPlugin]; exact hyk)
        (presF1_processPlugin a hyk h)

theorem presF2_foldl_process {y n : String} (l : List String) :
    ∀ d : List Plugin, (∀ q ∈ l, hasKey d q = true) → hasKey d y = false →
      y ∉ beforeOf d n → y ∉ beforeOf (l.foldl processPlugin d) n := by
  induction l with
  | nil => intro d _ _ h; exact h
  | cons a l ih =>
      intro d hql hyk h
      rw [List.foldl_cons]
      exact ih _
        (fun q hq => by
          rw [hasKey_processPlugin]; exact hql q (List.mem_cons_of_mem a hq))
        (by rw [hasKey_processPlugin]; exact hyk)
        (presF2_processPlugin a hyk (hql a (List.mem_cons_self a l)) h)

theorem presF3_foldl_process {y n : String} (l : List String) :
    ∀ d : List Plugin, hasKey d y = true → y ∈ beforeOf d n →
      y ∈ beforeOf (l.foldl processPlugin d) n := by
  induction l with
  | nil => intro d _ h; exact h
  | cons a l ih =>
      intro d hyk h
      rw [List.foldl_cons]
      exact ih _ (by rw [hasKey_processPlugin]; exact hyk)
        (presF3_processPlugin a hyk h)

theorem presF4_foldl_process {y n : String} (l : List String) :
    ∀ d : List Plugin, (∀ q ∈ l, hasKey d q = true) → hasKey d y = false →
      y ∉ afterOf d n → y ∉ afterOf (l.foldl processPlugin d) n := by
  induction l with
  | nil => intro d _ _ h; exact h
  | cons a l ih =>
      intro d hql hyk h
      rw [List.foldl_cons]
      exact ih _
        (fun q hq => by
          rw [hasKey_processPlugin]; exact hql q (List.mem_cons_of_mem a hq))
        (by rw [hasKey_processPlugin]; exact hyk)
        (presF4_processPlugin a hyk (hql a (List.mem_cons_self a l)) h)

theorem findByName_setify (d : List Plugin) (n : String) :
    findByName (setifyPlugins d) n =
      (findByName d n).map
        (fun p => { p with before := p.before.dedup, after := p.after.dedup }) := by
  induction d with
  | nil => rfl
  | cons p d ih =>
      unfold setifyPlugins findByName at ih ⊢
      simp only [List.map_cons, List.find?_cons]
      by_cases hp : p.name = n
      · simp [hp]
      · simp only [hp]
        simpa using ih

theorem hasKey_setify (d : List Plugin) (n : String) :
    hasKey (setifyPlugins d) n = hasKey d n := by
  rw [hasKey_eq_isSome, hasKey_eq_isSome, findByName_setify]
  cases findByName d n <;> rfl

theorem names_setify (d : List Plugin) :
    (setifyPlugins d).map Plugin.name = d.map Plugin.name := by
  unfold setifyPlugins
  rw [List.map_map]
  exact List.map_congr_left (fun p _ => rfl)

theorem findByName_of_mem_nodup {d : List Plugin} {p : Plugin}
    (hnd : (d.map Plugin.name).Nodup) (hp : p ∈ d) :
    findByName d p.name = some p := by
  induction d with
  | nil => simp at hp
  | cons q d ih =>
      rw [List.map_cons] at hnd
      rcases List.mem_cons.mp hp with rfl | hp'
      · unfold findByName
        rw [List.find?_cons]
        simp
      · have hq : q.name ≠ p.name := by
          intro heq
          exact (List.nodup_cons.mp hnd).1
            (heq ▸ List.mem_map_of_mem Plugin.name hp')
        unfold findByName at ih ⊢
        rw [List.find?_cons]
        have : (decide (q.name = p.name)) = false := by
          simp [hq]
        rw [this]
        exact ih (List.nodup_cons.mp hnd).2 hp'

theorem hasKey_of_mem_names {d : List Plugin} {n : String}
    (h : n ∈ d.map Plugin.name) : hasKey d n = true := by
  unfold hasKey
  rw [List.any_eq_true]
  rcases List.mem_map.mp h with ⟨p, hp, rfl⟩
  exact ⟨p, hp, by simp⟩

/-- Mirroring: `add_plugin_edges` mirrors and prunes every declared edge: for a
plugin dictionary with distinct names, every name `e` in the initial
`before` set of a plugin `p` either names a known plugin — and then after
mirroring the `after` set of that plugin contains `p.name` — or is
unknown and is removed from the `before` set of `p`; symmetrically for
`p.after`. -/
theorem add_plugin_edges_mirrors (d : List Plugin)
    (hnd : (d.map Plugin.name).Nodup) (p : Plugin) (hp : p ∈ d) (e : String) :
    (e ∈ p.before →
      (hasKey d e = true → p.name ∈ afterOf (add_plugin_edges d) e) ∧
      (hasKey d e = false → e ∉ beforeOf (add_plugin_edges d) p.name)) ∧
    (e ∈ p.after →
      (hasKey d e = true → p.name ∈ beforeOf (add_plugin_edges d) e) ∧
      (hasKey d e = false → e ∉ afterOf (add_plugin_edges d) p.name)) := by
  have heq : add_plugin_edges d =
      ((setifyPlugins d).map Plugin.name).foldl processPlugin (setifyPlugins d) :=
    rfl
  have hmemname : p.name ∈ (setifyPlugins d).map Plugin.name := by
    rw [names_setify]
    exact List.mem_map_of_mem Plugin.name hp
  obtain ⟨l1, l2, hsplit⟩ := List.append_of_mem hmemname
  have hnodup : (l1 ++ p.name :: l2).Nodup := by
    rw [← hsplit, names_setify]
    exact hnd
  have hl1 : ∀ q ∈ l1, q ≠ p.name := by
    intro q hq heqq
    rcases List.nodup_append.mp hnodup with ⟨_, _, hdisj⟩
    exact hdisj (heqq ▸ hq) (List.mem_cons_self p.name l2)
  have hl2keys : ∀ q ∈ l2, hasKey (setifyPlugins d) q = true := by
    intro q hq
    exact hasKey_of_mem_names
      (by rw [hsplit]; exact List.mem_append_right l1 (List.mem_cons_of_mem _ hq))
  have hfold : add_plugin_edges d =
      l2.foldl processPlugin
        (processPlugin (l1.foldl processPlugin (setifyPlugins d)) p.name) := by
    rw [heq, hsplit, List.foldl_append, List.foldl_cons]
  have hfind0 : findByName (setifyPlugins d) p.name =
      some { p with before := p.before.dedup, after := p.after.dedup } := by
    rw [findByName_setify, findByName_of_mem_nodup hnd hp]
    rfl
  have hbefore0 : beforeOf (setifyPlugins d) p.name = p.before.dedup :=
    beforeOf_some hfind0
  have hafter0 : afterOf (setifyPlugins d) p.name = p.after.dedup :=
    afterOf_some hfind0
  have hkeyA : ∀ n, hasKey (l1.foldl processPlugin (setifyPlugins d)) n = hasKey d n := by
    intro n
    rw [hasKey_foldl_process, hasKey_setify]
  have hpkd : hasKey d p.name = true :=
    hasKey_of_mem_names (List.mem_map_of_mem Plugin.name hp)
  have hpkA : hasKey (l1.foldl processPlugin (setifyPlugins d)) p.name = true := by
    rw [hkeyA]; exact hpkd
  have hkeyB : ∀ n,
      hasKey (processPlugin (l1.foldl processPlugin (setifyPlugins d)) p.name) n =
        hasKey d n := by
    intro n
    rw [hasKey_processPlugin, hkeyA]
  have hl2keysB : ∀ q ∈ l2,
      hasKey (processPlugin (l1.foldl processPlugin (setifyPlugins d)) p.name) q =
        true := by
    intro q hq
    rw [hkeyB, ← hasKey_setify]
    exact hl2keys q hq
  constructor
  · intro he
    have heB0 : e ∈ beforeOf (setifyPlugins d) p.name := by
      rw [hbefore0]
      exact List.mem_dedup.mpr he
    have heA : e ∈ beforeOf (l1.foldl processPlugin (setifyPlugins d)) p.name :=
      growB_foldl_process l1 (setifyPlugins d) hl1 heB0
    constructor
    · intro hek
      have hekA : hasKey (l1.foldl processPlugin (setifyPlugins d)) e = true := by
        rw [hkeyA]; exact hek
      have hB := estF1_processPlugin hpkA heA hekA
      rw [hfold]
      exact presF1_foldl_process l2 _ (by rw [hkeyB]; exact hpkd) hB
    · intro hek
      have hekA : hasKey (l1.foldl processPlugin (setifyPlugins d)) e = false := by
        rw [hkeyA]; exact hek
      have hB := estF2_processPlugin hpkA heA hekA
      rw [hfold]
      exact presF2_foldl_process l2 _ hl2keysB (by rw [hkeyB]; exact hek) hB
  · intro he
    have heA0 : e ∈ afterOf (setifyPlugins d) p.name := by
      rw [hafter0]
      exact List.mem_dedup.mpr he
    have heA : e ∈ afterOf (l1.foldl processPlugin (setifyPlugins d)) p.name :=
      growA_foldl_process l1 (setifyPlugins d) hl1 heA0
    constructor
    · intro hek
      have hekA : hasKey (l1.foldl processPlugin (setifyPlugins d)) e = true := by
        rw [hkeyA]; exact hek
      have hB := estF3_processPlugin heA hekA
      rw [hfold]
      exact presF3_foldl_process l2 _ (by rw [hkeyB]; exact hpkd) hB
    · intro hek
      have hekA : hasKey (l1.foldl processPlugin (setifyPlugins d)) e = false := by
        rw [hkeyA]; exact hek
      have hB := estF4_processPlugin heA hekA
      rw [hfold]
      exact presF4_foldl_process l2 _ hl2keysB (by rw [hkeyB]; exact hek) hB

theorem mem_insertName_iff {y x : String} {l : List String} :
    y ∈ insertName x l ↔ y = x ∨ y ∈ l := by
  constructor
  · exact eq_or_mem_of_mem_insertName
  · rintro (rfl | h)
    · exact mem_insertName_self y l
    · exact mem_insertName_of_mem x h

theorem mem_foldl_insertName (plugins : List String) :
    ∀ (base : List String) (x : String),
      x ∈ plugins.foldl (fun l n => insertName n l) base ↔
        x ∈ base ∨ x ∈ plugins := by
  induction plugins with
  | nil => simp
  | cons p ps ih =>
      intro base x
      rw [List.foldl_cons, ih, mem_insertName_iff]
      simp only [List.mem_cons]
      tauto

/-- Characterisation of the partition loop of `expand_names`: the
wildcard flag records whether a `*` token was seen, the exception set
collects the dash-stripped remainders of `-`-prefixed tokens, and the
expanded set collects the remaining tokens. -/
theorem expand_foldl_spec (names : List String) :
    ∀ acc : Bool × List String × List String,
      ((names.foldl expandStep acc).1 =
        (acc.1 || names.any (fun n => n == "*"))) ∧
      (∀ x, x ∈ (names.foldl expandStep acc).2.1 ↔
        x ∈ acc.2.1 ∨ ∃ n, n ∈ names ∧ dashToken n = true ∧ stripDash n = x) ∧
      (∀ x, x ∈ (names.foldl expandStep acc).2.2 ↔
        x ∈ acc.2.2 ∨ (x ∈ names ∧ x ≠ "*" ∧ dashToken x = false)) := by
  induction names with
  | nil => intro acc; simp
  | cons n ns ih =>
      intro acc
      by_cases h1 : n = "*"
      · subst h1
        have hstep : expandStep acc "*" = (true, acc.2.1, acc.2.2) := by
          unfold expandStep
          rw [if_pos rfl]
        rw [List.foldl_cons, hstep]
        obtain ⟨ihw, ihe, ihx⟩ := ih (true, acc.2.1, acc.2.2)
        refine ⟨by rw [ihw]; simp, ?_, ?_⟩
        · intro x
          rw [ihe x]
          simp only [List.mem_cons]
          constructor
          · rintro (hx | ⟨m, hm, hd, hs⟩)
            · exact Or.inl hx
            · exact Or.inr ⟨m, Or.inr hm, hd, hs⟩
          · rintro (hx | ⟨m, (rfl | hm), hd, hs⟩)
            · exact Or.inl hx
            · exact absurd hd (by decide)
            · exact Or.inr ⟨m, hm, hd, hs⟩
        · intro x
          rw [ihx x]
          simp only [List.mem_cons]
          constructor
          · rintro (hx | ⟨hm, hne, hd⟩)
            · exact Or.inl hx
            · exact Or.inr ⟨Or.inr hm, hne, hd⟩
          · rintro (hx | ⟨(rfl | hm), hne, hd⟩)
            · exact Or.inl hx
            · exact absurd rfl hne
            · exact Or.inr ⟨hm, hne, hd⟩
      · by_cases h2 : dashToken n = true
        · have hstep : expandStep acc n =
              (acc.1, insertName (stripDash n) acc.2.1, acc.2.2) := by
            unfold expandStep
            rw [if_neg h1, if_pos h2]
          rw [List.foldl_cons, hstep]
          obtain ⟨ihw, ihe, ihx⟩ := ih (acc.1, insertName (stripDash n) acc.2.1, acc.2.2)
          refine ⟨by rw [ihw]; simp [show (n == "*") = false by simpa using h1], ?_, ?_⟩
          · intro x
            rw [ihe x, mem_insertName_iff]
            simp only [List.mem_cons]
            constructor
            · rintro ((rfl | hx) | ⟨m, hm, hd, hs⟩)
              · exact Or.inr ⟨n, Or.inl rfl, h2, rfl⟩
              · exact Or.inl hx
              · exact Or.inr ⟨m, Or.inr hm, hd, hs⟩
            · rintro (hx | ⟨m, (rfl | hm), hd, hs⟩)
              · exact Or.inl (Or.inr hx)
              · exact Or.inl (Or.inl hs.symm)
              · exact Or.inr ⟨m, hm, hd, hs⟩
          · intro x
            rw [ihx x]
            simp only [List.mem_cons]
            constructor
            · rintro (hx | ⟨hm, hne, hd⟩)
              · exact Or.inl hx
              · exact Or.inr ⟨Or.inr hm, hne, hd⟩
            · rintro (hx | ⟨(rfl | hm), hne, hd⟩)
              · exact Or.inl hx
              · simp [h2] at hd
              · exact Or.inr ⟨hm, hne, hd⟩
        · have hstep : expandStep acc n = (acc.1, acc.2.1, insertName n acc.2.2) := by
            unfold expandStep
            rw [if_neg h1, if_neg h2]
          rw [List.foldl_cons, hstep]
          obtain ⟨ihw, ihe, ihx⟩ := ih (acc.1, acc.2.1, insertName n acc.2.2)
          refine ⟨by rw [ihw]; simp [show (n == "*") = false by simpa using h1], ?_, ?_⟩
          · intro x
            rw [ihe x]
            simp only [List.mem_cons]
            constructor
            · rintro (hx | ⟨m, hm, hd, hs⟩)
              · exact Or.inl hx
              · exact Or.inr ⟨m, Or.inr hm, hd, hs⟩
            · rintro (hx | ⟨m, (rfl | hm), hd, hs⟩)
              · exact Or.inl hx
              · exact absurd hd h2
              · exact Or.inr ⟨m, hm, hd, hs⟩
          · intro x
            rw [ihx x, mem_insertName_iff]
            simp only [List.mem_cons]
            constructor
            · rintro ((rfl | hx) | ⟨hm, hne, hd⟩)
              · exact Or.inr ⟨Or.inl rfl, h1, by simpa using h2⟩
              · exact Or.inl hx
              · exact Or.inr ⟨Or.inr hm, hne, hd⟩
            · rintro (hx | ⟨(rfl | hm), hne, hd⟩)
              · exact Or.inl (Or.inr hx)
              · exact Or.inl (Or.inl rfl)
              · exact Or.inr ⟨hm, hne, hd⟩

/-- Membership characterisation of `expand_names`: the expanded set is
(explicit inclusions, plus every known name when a `*` token occurs)
minus the names given with a `-` prefix. -/
theorem expand_names_spec (plugins names : List String) (x : String) :
    x ∈ expand_names plugins names ↔
      ((x ∈ names ∧ x ≠ "*" ∧ dashToken x = false) ∨
        ("*" ∈ names ∧ x ∈ plugins)) ∧
      ¬∃ n, n ∈ names ∧ dashToken n = true ∧ stripDash n = x := by
  unfold expand_names
  obtain ⟨hw, he, hx⟩ := expand_foldl_spec names (false, [], [])
  have hany : (names.any (fun n => n == "*") = true) ↔ "*" ∈ names := by
    rw [List.any_eq_true]
    constructor
    · rintro ⟨m, hm, hbeq⟩
      rw [beq_iff_eq] at hbeq
      exact hbeq ▸ hm
    · intro hm
      exact ⟨"*", hm, by simp⟩
  rw [List.mem_filter]
  have hexp : (x ∈ if (names.foldl expandStep (false, [], [])).1 then
      plugins.foldl (fun l n => insertName n l)
        (names.foldl expandStep (false, [], [])).2.2
      else (names.foldl expandStep (false, [], [])).2.2) ↔
      ((x ∈ names ∧ x ≠ "*" ∧ dashToken x = false) ∨
        ("*" ∈ names ∧ x ∈ plugins)) := by
    by_cases hwc : (names.foldl expandStep (false, [], [])).1 = true
    · rw [if_pos hwc, mem_foldl_insertName, hx x]
      have hstar : "*" ∈ names := by
        rw [hwc] at hw
        exact hany.mp (by simpa using hw.symm)
      simp [hstar]
    · rw [if_neg hwc, hx x]
      have hstar : "*" ∉ names := by
        intro hm
        exact hwc (by rw [hw]; simp [hany.mpr hm])
      simp [hstar]
  rw [hexp]
  have hpred : (decide (x ∉ (names.foldl expandStep (false, [], [])).2.1) = true) ↔
      ¬∃ n, n ∈ names ∧ dashToken n = true ∧ stripDash n = x := by
    rw [decide_eq_true_iff, he x]
    simp
  rw [hpred]

/-! Last-wins semantics of the discovery dict (C10). -/
theorem findByName_mapOverwrite_self (p : Plugin) :
    ∀ d : List Plugin, hasKey d p.name = true →
      findByName (d.map (fun q => if q.name = p.name then p else q)) p.name =
        some p := by
  intro d
  induction d with
  | nil => intro h; simp [hasKey] at h
  | cons q d ih =>
      intro h
      unfold findByName
      rw [List.map_cons, List.find?_cons]
      by_cases hq : q.name = p.name
      · rw [if_pos hq]
        simp
      · rw [if_neg hq]
        have : (decide (q.name = p.name)) = false := by simp [hq]
        rw [this]
        apply ih
        unfold hasKey at h ⊢
        rw [List.any_cons] at h
        have hq' : (decide (q.name = p.name)) = false := by simp [hq]
        rw [hq', Bool.false_or] at h
        exact h

theorem findByName_mapOverwrite_other (p : Plugin) (n : String) (hn : n ≠ p.name) :
    ∀ d : List Plugin,
      findByName (d.map (fun q => if q.name = p.name then p else q)) n =
        findByName d n := by
  have hn' : p.name ≠ n := Ne.symm hn
  intro d
  induction d with
  | nil => rfl
  | cons q d ih =>
      unfold findByName at ih ⊢
      rw [List.map_cons, List.find?_cons, List.find?_cons]
      by_cases hq : q.name = p.name
      · rw [if_pos hq]
        have h1 : (decide (p.name = n)) = false := by simp [hn']
        have h2 : (decide (q.name = n)) = false := by simp [hq, hn']
        rw [h1, h2]
        exact ih
      · rw [if_neg hq]
        cases hqd : (decide (q.name = n)) <;> simp [hqd, ih]

theorem findByName_append_single_self (p : Plugin) :
    ∀ d : List Plugin, hasKey d p.name = false →
      findByName (d ++ [p]) p.name = some p := by
  intro d
  induction d with
  | nil => simp [findByName]
  | cons q d ih =>
      intro h
      unfold hasKey at h
      rw [List.any_cons] at h
      unfold findByName
      rw [List.cons_append, List.find?_cons]
      have hq : (decide (q.name = p.name)) = false := by
        rcases Bool.or_eq_false_iff.mp h with ⟨h1, _⟩
        simpa using h1
      rw [hq]
      apply ih
      rcases Bool.or_eq_false_iff.mp h with ⟨_, h2⟩
      exact h2

theorem findByName_append_single_other (p : Plugin) (n : String) (hn : n ≠ p.name) :
    ∀ d : List Plugin, findByName (d ++ [p]) n = findByName d n := by
  have hn' : p.name ≠ n := Ne.symm hn
  intro d
  induction d with
  | nil =>
      unfold findByName
      simp [hn']
  | cons q d ih =>
      unfold findByName at ih ⊢
      rw [List.cons_append, List.find?_cons, List.find?_cons]
      cases hqd : (decide (q.name = n)) <;> simp [hqd, ih]

/-- Python `d[p.name] = p` behaves as a map update. -/
theorem findByName_pluginInsert (d : List Plugin) (p : Plugin) (n : String) :
    findByName (pluginInsert d p) n =
      if n = p.name then some p else findByName d n := by
  unfold pluginInsert
  by_cases hk : hasKey d p.name = true
  · rw [if_pos hk]
    by_cases hn : n = p.name
    · subst hn
      rw [if_pos rfl]
      exact findByName_mapOverwrite_self p d hk
    · rw [if_neg hn]
      exact findByName_mapOverwrite_other p n hn d
  · rw [if_neg hk]
    by_cases hn : n = p.name
    · subst hn
      rw [if_pos rfl]
      exact findByName_append_single_self p d (Bool.not_eq_true _ ▸ hk)
    · rw [if_neg hn]
      exact findByName_append_single_other p n hn d

theorem discover_foldl_find (verify : Plugin → Bool) (found : List Plugin) :
    ∀ (acc : List Plugin) (n : String),
      findByName
          (found.foldl (fun d p => if verify p then pluginInsert d p else d) acc)
          n =
        match lastVerified verify found n with
        | some q => some q
        | none => findByName acc n := by
  induction found with
  | nil => intro acc n; rfl
  | cons p found ih =>
      intro acc n
      rw [List.foldl_cons, ih]
      cases hl : lastVerified verify found n with
      | some q =>
          rw [show lastVerified verify (p :: found) n = some q by
            rw [lastVerified, hl]]
      | none =>
          rw [show lastVerified verify (p :: found) n =
              (if verify p && p.name == n then some p else none) by
            rw [lastVerified, hl]]
          by_cases hv : verify p = true
          · rw [if_pos hv, findByName_pluginInsert]
            by_cases hn : n = p.name
            · rw [if_pos hn]
              have : (verify p && p.name == n) = true := by simp [hv, hn]
              rw [this]
              rfl
            · rw [if_neg hn]
              have : (verify p && p.name == n) = false := by
                simp [Ne.symm hn]
              rw [this]
              rfl
          · rw [if_neg hv]
            have : (verify p && p.name == n) = false := by
              simp [Bool.not_eq_true _ ▸ hv]
            rw [this]
            rfl

/-- The dict built by the discovery loop maps each name to the last
verified candidate carrying it. -/
theorem findByName_discover (verify : Plugin → Bool) (found : List Plugin)
    (n : String) :
    findByName (discoverPlugins verify found) n = lastVerified verify found n := by
  unfold discoverPlugins
  rw [discover_foldl_find]
  cases lastVerified verify found n <;> rfl

theorem lastVerified_append (verify : Plugin → Bool) (l1 l2 : List Plugin)
    (n : String) :
    lastVerified verify (l1 ++ l2) n =
      match lastVerified verify l2 n with
      | some q => some q
      | none => lastVerified verify l1 n := by
  induction l1 with
  | nil =>
      rw [List.nil_append]
      cases lastVerified verify l2 n <;> rfl
  | cons p l1 ih =>
      rw [List.cons_append, lastVerified, ih, lastVerified]
      cases lastVerified verify l2 n <;> cases lastVerified verify l1 n <;> rfl

theorem lastVerified_eq_none (verify : Plugin → Bool) (n : String) :
    ∀ l : List Plugin, (∀ q ∈ l, verify q = true → q.name ≠ n) →
      lastVerified verify l n = none := by
  intro l
  induction l with
  | nil => intro _; rfl
  | cons p l ih =>
      intro h
      rw [lastVerified, ih (fun q hq => h q (List.mem_cons_of_mem p hq))]
      by_cases hv : verify p = true
      · have : (p.name == n) = false := by
          simp [h p (List.mem_cons_self p l) hv]
        simp [this]
      · simp [Bool.not_eq_true _ ▸ hv]

theorem pluginInsert_keys_nodup {d : List Plugin} (p : Plugin)
    (h : (d.map Plugin.name).Nodup) :
    ((pluginInsert d p).map Plugin.name).Nodup := by
  unfold pluginInsert
  by_cases hk : hasKey d p.name = true
  · rw [if_pos hk]
    have heq : (d.map (fun q => if q.name = p.name then p else q)).map Plugin.name
        = d.map Plugin.name := by
      rw [List.map_map]
      apply List.map_congr_left
      intro q _
      by_cases hq : q.name = p.name
      · simp [hq]
      · simp [hq]
    rw [heq]
    exact h
  · rw [if_neg hk]
    rw [List.map_append]
    rw [List.nodup_append]
    refine ⟨h, by simp, ?_⟩
    intro x hx1 hx2
    simp only [List.map_cons, List.map_nil, List.mem_singleton] at hx2
    subst hx2
    exact absurd (hasKey_of_mem_names hx1) hk

theorem discover_keys_nodup (verify : Plugin → Bool) (found : List Plugin) :
    ((discoverPlugins verify found).map Plugin.name).Nodup := by
  unfold discoverPlugins
  have haux : ∀ (fs : List Plugin) (acc : List Plugin),
      (acc.map Plugin.name).Nodup →
      ((fs.foldl (fun d p => if verify p then pluginInsert d p else d) acc).map
        Plugin.name).Nodup := by
    intro fs
    induction fs with
    | nil => intro acc h; exact h
    | cons p fs ih =>
        intro acc h
        rw [List.foldl_cons]
        by_cases hv : verify p = true
        · rw [if_pos hv]
          exact ih _ (pluginInsert_keys_nodup p h)
        · rw [if_neg hv]
          exact ih _ h
  exact haux found [] (by simp)

/-- In the unmirrored cycle the recursion of `visit` never terminates:
with any fuel, visiting any of the three plugins from an empty
accumulator exhausts the recursion limit. -/
theorem cycleVisitAux : ∀ fuel : Nat,
    visit [chainA, chainB, rawC] fuel chainA [] = none ∧
    visit [chainA, chainB, rawC] fuel chainB [] = none ∧
    visit [chainA, chainB, rawC] fuel rawC [] = none := by
  intro fuel
  induction fuel with
  | zero => exact ⟨rfl, rfl, rfl⟩
  | succ g ih =>
      obtain ⟨ihA, ihB, ihC⟩ := ih
      have hfa : findPlugin [chainA, chainB, rawC] "a" = some chainA := by decide
      have hfb : findPlugin [chainA, chainB, rawC] "b" = some chainB := by decide
      have hfc : findPlugin [chainA, chainB, rawC] "c" = some rawC := by decide
      refine ⟨?_, ?_, ?_⟩
      · rw [visit, if_neg (by simp)]
        have hv : visitNamesGo [chainA, chainB, rawC]
            (visit [chainA, chainB, rawC] g) chainA.before [] = none := by
          show visitNamesGo [chainA, chainB, rawC]
            (visit [chainA, chainB, rawC] g) ["b"] [] = none
          simp only [visitNamesGo, hfb, ihB]
        rw [hv]
      · rw [visit, if_neg (by simp)]
        have hv : visitNamesGo [chainA, chainB, rawC]
            (visit [chainA, chainB, rawC] g) chainB.before [] = none := by
          show visitNamesGo [chainA, chainB, rawC]
            (visit [chainA, chainB, rawC] g) ["c"] [] = none
          simp only [visitNamesGo, hfc, ihC]
        rw [hv]
      · rw [visit, if_neg (by simp)]
        have hv : visitNamesGo [chainA, chainB, rawC]
            (visit [chainA, chainB, rawC] g) rawC.before [] = none := by
          show visitNamesGo [chainA, chainB, rawC]
            (visit [chainA, chainB, rawC] g) ["a"] [] = none
          simp only [visitNamesGo, hfa, ihA]
        rw [hv]

/-! ## Claim theorems -/
/-- C1.  The isolation entrypoint does NOT restore `sys.modules` across a
nested (re-entrant) isolated load: starting from `sys.modules = [("m", 7)]`,
an isolated load whose body performs another isolated load (as
`redirectLocalImports` does for function-level imports) completes
normally, restores `sys.meta_path`, `sys.path_hooks` and `__import__`,
but leaves `sys.modules` equal to the inner frame entry snapshot (empty)
because `_PEP302Mapper._oldSysModules` is a single class-level slot that
the nested call overwrites. -/
theorem isolateImports_nested_leaks_modules :
    nestedLoadDemo.1 = some 0 ∧
    nestedLoadDemo.2.sys.metaPath = [1] ∧
    nestedLoadDemo.2.sys.pathHooks = [2] ∧
    nestedLoadDemo.2.sys.importFn = 3 ∧
    nestedLoadDemo.2.sys.modules = [] ∧
    nestedLoadDemo.2.sys.modules ≠ [("m", 7)] := by decide

/-- C2 counterexample.  Sorting `[C, B, A]` with `A.before = {B}`,
`B.before = {C}` returns `[C, B, A]`: `A` does not precede `B` in the
result, contrary to the claim. -/
theorem sort_plugins_chain_counterexample :
    sort_plugins 9 [chainC, chainB, chainA] = some [chainC, chainB, chainA] ∧
    ¬ ([chainC, chainB, chainA].findIdx (fun q => q == chainA) <
        [chainC, chainB, chainA].findIdx (fun q => q == chainB)) := by decide

/-- C2 amended.  With `A.before = {B}`, `B.before = {C}`, `C.before = {}`
and empty after-sets, `sort_plugins [C, B, A]` returns `[C, B, A]`: an
ordering in which C precedes B and B precedes A (members of the `before`
set of a plugin precede it, matching the documented attribute meaning). -/
theorem sort_plugins_chain_order (fuel : Nat) (hf : 4 ≤ fuel) :
    sort_plugins fuel [chainC, chainB, chainA] = some [chainC, chainB, chainA] ∧
    ([chainC, chainB, chainA].findIdx (fun q => q == chainC) <
      [chainC, chainB, chainA].findIdx (fun q => q == chainB)) ∧
    ([chainC, chainB, chainA].findIdx (fun q => q == chainB) <
      [chainC, chainB, chainA].findIdx (fun q => q == chainA)) := by
  refine ⟨?_, by decide, by decide⟩
  exact sort_plugins_mono_le [chainC, chainB, chainA] 4 fuel hf
    [chainC, chainB, chainA] (by decide)

theorem sort_plugins_chain_order_witness :
    4 ≤ 9 ∧
    (sort_plugins 9 [chainC, chainB, chainA] = some [chainC, chainB, chainA] ∧
    ([chainC, chainB, chainA].findIdx (fun q => q == chainC) <
      [chainC, chainB, chainA].findIdx (fun q => q == chainB)) ∧
    ([chainC, chainB, chainA].findIdx (fun q => q == chainB) <
      [chainC, chainB, chainA].findIdx (fun q => q == chainA))) :=
  ⟨by decide, sort_plugins_chain_order 9 (by decide)⟩

/-- C3.  `sort_plugins` does not raise on a cyclic dependency: on the
mirrored 3-cycle it silently returns the empty list (no seed plugin
exists), and on the unmirrored cycle the recursion never terminates
(the Python `RuntimeError`, modelled as fuel exhaustion) — in neither case
is the `PluginException` promised by its docstring raised. -/
theorem sort_plugins_cycle_silent :
    (∀ fuel : Nat, sort_plugins fuel [cycA, cycB, cycC] = some []) ∧
    (∀ fuel : Nat, sort_plugins fuel [chainA, chainB, rawC] = none) := by
  constructor
  · intro fuel
    rfl
  · intro fuel
    have h := (cycleVisitAux fuel).1
    show sortSeeds [chainA, chainB, rawC] fuel [chainA, chainB, rawC] [] = none
    rw [sortSeeds, if_neg (by decide), h]

theorem withOverrides_lookup_aux {α : Type} (m : Mapper α)
    (ov : List (String × α)) (n : String) (v : α)
    (h : List.lookup n ov = some v) :
    (m.withOverrides ov).lookup n = some v := by
  show Mapper.lookupStacked [Mapper.dict ov, m] n = some v
  rw [Mapper.lookupStacked]
  have hd : Mapper.lookup (Mapper.dict ov) n = some v := h
  rw [hd]

/-- C4.  `withOverrides(m)` on every mapper variant returns
`_StackedMapper([DictMapper(m), self])`; lookup of an overridden name
returns the override regardless of the base mapper, and under repeated
overriding the latest override wins ties. -/
theorem withOverrides_precedence {α : Type} :
    (∀ (m : Mapper α) (ov : List (String × α)) (n : String) (v : α),
        List.lookup n ov = some v → (m.withOverrides ov).lookup n = some v) ∧
    (∀ (m : Mapper α) (ov : List (String × α)),
        m.withOverrides ov = Mapper.stacked [Mapper.dict ov, m]) ∧
    (∀ (m : Mapper α) (ov1 ov2 : List (String × α)) (n : String) (v : α),
        List.lookup n ov2 = some v →
          ((m.withOverrides ov1).withOverrides ov2).lookup n = some v) :=
  ⟨fun m ov n v h => withOverrides_lookup_aux m ov n v h,
   fun _ _ => rfl,
   fun m ov1 ov2 n v h => withOverrides_lookup_aux (m.withOverrides ov1) ov2 n v h⟩

theorem withOverrides_precedence_witness :
    List.lookup "a" [("a", 2)] = some (2 : Nat) ∧
    (((emptyMapper : Mapper Nat).withOverrides [("a", 1)]).withOverrides
        [("a", 2)]).lookup "a" = some 2 :=
  ⟨rfl, withOverrides_precedence.2.2 emptyMapper [("a", 1)] [("a", 2)] "a" 2 rfl⟩

/-- C5.  `ExclusiveMapper` fails lookup and reports `contains = False`
for every excluded name, regardless of the wrapped submapper; for
non-excluded names both operations delegate to the submapper. -/
theorem exclusiveMapper_denylist {α : Type} :
    (∀ (sub : Mapper α) (excluded : List String) (n : String), n ∈ excluded →
        (Mapper.exclusive sub excluded).lookup n = none ∧
        (Mapper.exclusive sub excluded).contains n = false) ∧
    (∀ (sub : Mapper α) (excluded : List String) (n : String), n ∉ excluded →
        (Mapper.exclusive sub excluded).lookup n = sub.lookup n ∧
        (Mapper.exclusive sub excluded).contains n = sub.contains n) := by
  constructor
  · intro sub ex n h
    exact ⟨by simp [Mapper.lookup, h], by simp [Mapper.contains, h]⟩
  · intro sub ex n h
    exact ⟨by simp [Mapper.lookup, h], by simp [Mapper.contains, h]⟩

theorem exclusiveMapper_denylist_witness :
    ("sys" ∈ ["sys"] ∧
      (Mapper.exclusive (Mapper.dict [("sys", 1)]) ["sys"]).lookup "sys" = none ∧
      (Mapper.exclusive (Mapper.dict [("sys", 1)]) ["sys"]).contains "sys" = false) ∧
    ((Mapper.dict [("sys", 1)]).lookup "sys" = some 1) :=
  ⟨⟨by decide,
    exclusiveMapper_denylist.1 (Mapper.dict [("sys", 1)]) ["sys"] "sys" (by decide)⟩,
   rfl⟩

/-- C6.  `add_plugin_edges` mirrors and prunes: for every plugin
dictionary with distinct names, every plugin `p` and every name `e` in
the declared `before` set of `p`, if `e` names a known plugin then after
mirroring the `after` set of that plugin contains `p.name`, and
otherwise `e` is removed from the `before` set of `p`; symmetrically for
`p.after`. -/
theorem add_plugin_edges_spec (d : List Plugin)
    (hnd : (d.map Plugin.name).Nodup) (p : Plugin) (hp : p ∈ d) (e : String) :
    (e ∈ p.before →
      (hasKey d e = true → p.name ∈ afterOf (add_plugin_edges d) e) ∧
      (hasKey d e = false → e ∉ beforeOf (add_plugin_edges d) p.name)) ∧
    (e ∈ p.after →
      (hasKey d e = true → p.name ∈ beforeOf (add_plugin_edges d) e) ∧
      (hasKey d e = false → e ∉ afterOf (add_plugin_edges d) p.name)) :=
  add_plugin_edges_mirrors d hnd p hp e

theorem add_plugin_edges_spec_witness :
    "b" ∈ chainA.before ∧
    hasKey [chainA, ⟨"b", [], []⟩] "b" = true ∧
    "a" ∈ afterOf (add_plugin_edges [chainA, ⟨"b", [], []⟩]) "b" := by
  refine ⟨by decide, by decide, ?_⟩
  have h := add_plugin_edges_spec [chainA, ⟨"b", [], []⟩] (by decide)
    chainA (by decide) "b"
  exact (h.1 (by decide)).1 (by decide)

/-- C7.  `expand_names` computes (explicit inclusions, plus every known
name when a `*` token is present) minus the dash-prefixed names; the
resulting set is invariant under permutation of the token list, and for
known names {a, b, c} the input `["*", "-b"]` expands to exactly
{a, c}. -/
theorem expand_names_correct :
    (∀ (plugins names : List String) (x : String),
        x ∈ expand_names plugins names ↔
          ((x ∈ names ∧ x ≠ "*" ∧ dashToken x = false) ∨
            ("*" ∈ names ∧ x ∈ plugins)) ∧
          ¬∃ n, n ∈ names ∧ dashToken n = true ∧ stripDash n = x) ∧
    (∀ (plugins names names' : List String), names.Perm names' →
        ∀ x : String,
          x ∈ expand_names plugins names ↔ x ∈ expand_names plugins names') ∧
    expand_names ["a", "b", "c"] ["*", "-b"] = ["a", "c"] := by
  refine ⟨expand_names_spec, ?_, by decide⟩
  intro plugins names names' hperm x
  rw [expand_names_spec, expand_names_spec]
  simp only [hperm.mem_iff]

theorem expand_names_correct_witness :
    (["x", "-y"].Perm ["-y", "x"]) ∧
    (("x" : String) ∈ expand_names ["a"] ["x", "-y"] ↔
      "x" ∈ expand_names ["a"] ["-y", "x"]) :=
  ⟨by decide, expand_names_correct.2.1 ["a"] ["x", "-y"] ["-y", "x"] (by decide) "x"⟩

/-- C8.  A discovery pass with zero verified candidates makes
`retrieve_plugins` return the empty mapping (no error), and
`retrieve_named_plugins` for an explicit name `x` against that empty
mapping fails with a plugin-not-found error naming the plugin and the
interface. -/
theorem retrieve_zero_candidates :
    (∀ (verify : Plugin → Bool) (sortedInterface : Bool),
        retrieve_plugins verify [] sortedInterface = []) ∧
    (∀ iface : String,
        retrieve_named_plugins [] ["x"] iface =
          Except.error (PluginError.pluginNotFound "x" iface)) := by
  constructor
  · intro verify si
    cases si <;> rfl
  · intro iface
    rfl

/-- C9.  For every mapper variant and every name, `contains` returns
`True` exactly when `lookup` succeeds. -/
theorem contains_iff_lookup {α : Type} :
    ∀ (m : Mapper α) (n : String), m.contains n = (m.lookup n).isSome
  | .callable _, _ => rfl
  | .dict _, _ => rfl
  | .stacked _, _ => rfl
  | .exclusive sub ex, n => by
      by_cases hc : n ∈ ex
      · simp [Mapper.contains, Mapper.lookup, hc]
      · simp [Mapper.contains, Mapper.lookup, hc, contains_iff_lookup sub n]

/-- C10.  When two verified candidates share a name, the discovery dict
built by `retrieve_plugins` binds that name to the later candidate; no
error is raised (the function is total) and the earlier candidate is
absent from the result. -/
theorem retrieve_plugins_duplicate_lastWins
    (verify : Plugin → Bool) (pre mid post : List Plugin) (a b : Plugin)
    (hva : verify a = true) (hvb : verify b = true)
    (hname : a.name = b.name) (hab : a ≠ b)
    (hpost : ∀ q ∈ post, verify q = true → q.name ≠ b.name) :
    findByName (retrieve_plugins verify (pre ++ a :: (mid ++ b :: post)) false)
        b.name = some b ∧
    a ∉ retrieve_plugins verify (pre ++ a :: (mid ++ b :: post)) false := by
  have hre : retrieve_plugins verify (pre ++ a :: (mid ++ b :: post)) false =
      discoverPlugins verify (pre ++ a :: (mid ++ b :: post)) := rfl
  rw [hre]
  have hfind : findByName (discoverPlugins verify (pre ++ a :: (mid ++ b :: post)))
      b.name = some b := by
    rw [findByName_discover]
    have heq : pre ++ a :: (mid ++ b :: post) = (pre ++ a :: mid) ++ (b :: post) := by
      simp
    rw [heq, lastVerified_append]
    have h2 : lastVerified verify (b :: post) b.name = some b := by
      rw [lastVerified, lastVerified_eq_none verify b.name post hpost]
      simp [hvb]
    rw [h2]
  refine ⟨hfind, ?_⟩
  intro hmem
  have hq := findByName_of_mem_nodup
    (discover_keys_nodup verify (pre ++ a :: (mid ++ b :: post))) hmem
  rw [hname, hfind] at hq
  exact hab (Option.some.inj hq).symm

theorem retrieve_plugins_duplicate_lastWins_witness :
    findByName (retrieve_plugins (fun _ => true) [dupA, dupB] false) "n"
      = some dupB ∧
    dupA ∉ retrieve_plugins (fun _ => true) [dupA, dupB] false := by
  have h := retrieve_plugins_duplicate_lastWins (fun _ => true) [] [] []
    dupA dupB rfl rfl rfl (by decide) (by intro q hq; simp at hq)
  exact h

end BravoPlugin
